import Mathlib

/-!
Verification of the transformation representation and printing layer
(`alive/transform.py`): term-DAG utilities, the type-constraint collection
driver, constant hoisting, the formatter's naming discipline, the
precedence-aware connective printer, and the line-continuation renderer.

Terms form a shared, acyclic DAG; following the design notes we embed the
DAG as an arena of nodes addressed by integer indices, where every node's
operands have strictly smaller indices (any finite acyclic graph can be
indexed this way).  Identity of terms is identity of indices.

Collaborator modules (`language`, `typing`, `util.pretty`) are not part of
the sources; where their behaviour is needed it is modelled from the spec,
and each such definition is marked `Modelled from the spec:` in its
doc comment.
-/

namespace Rival

/-! ## Decimal rendering of naturals (Python `str(n)`) -/

/-- Little-endian decimal digits, structurally recursive on a fuel bound
(the fuel never runs out, since a number's digit count is at most itself). -/
def natDigitsAux : Nat → Nat → List Nat
  | _, 0 => []
  | 0, _ + 1 => []
  | fuel + 1, n + 1 => (n + 1) % 10 :: natDigitsAux fuel ((n + 1) / 10)

/-- Little-endian decimal digits of a natural; empty for zero. -/
def natDigits (n : Nat) : List Nat := natDigitsAux n n

theorem natDigitsAux_congr : ∀ n fuel₁ fuel₂, n ≤ fuel₁ → n ≤ fuel₂ →
    natDigitsAux fuel₁ n = natDigitsAux fuel₂ n := by
  intro n
  induction n using Nat.strong_induction_on with
  | _ n ih =>
    intro fuel₁ fuel₂ h₁ h₂
    cases n with
    | zero => cases fuel₁ <;> cases fuel₂ <;> rfl
    | succ m =>
      cases fuel₁ with
      | zero => omega
      | succ f₁ =>
        cases fuel₂ with
        | zero => omega
        | succ f₂ =>
          rw [natDigitsAux, natDigitsAux]
          congr 1
          have hdiv : (m + 1) / 10 < m + 1 :=
            Nat.div_lt_self (Nat.succ_pos m) (by omega)
          exact ih _ hdiv _ _ (by omega) (by omega)

theorem natDigits_succ (n : Nat) :
    natDigits (n + 1) = (n + 1) % 10 :: natDigits ((n + 1) / 10) := by
  rw [natDigits, natDigitsAux]
  have hdiv : (n + 1) / 10 ≤ n := by
    have := Nat.div_lt_self (Nat.succ_pos n) (show 1 < 10 by omega)
    omega
  rw [natDigitsAux_congr ((n + 1) / 10) n ((n + 1) / 10) hdiv le_rfl]
  rfl

/-- Value of a little-endian digit list. -/
def unDigits : List Nat → Nat
  | [] => 0
  | d :: ds => d + 10 * unDigits ds

theorem unDigits_natDigits : ∀ n, unDigits (natDigits n) = n := by
  intro n
  induction n using Nat.strong_induction_on with
  | _ n ih =>
    match n with
    | 0 => simp [natDigits, natDigitsAux, unDigits]
    | n + 1 =>
      rw [natDigits_succ, unDigits, ih ((n + 1) / 10)
        (Nat.div_lt_self (Nat.succ_pos n) (by omega))]
      omega

theorem natDigits_lt10 : ∀ n, ∀ d ∈ natDigits n, d < 10 := by
  intro n
  induction n using Nat.strong_induction_on with
  | _ n ih =>
    match n with
    | 0 => intro d hd; simp [natDigits, natDigitsAux] at hd
    | n + 1 =>
      intro d hd
      rw [natDigits_succ] at hd
      rcases List.mem_cons.mp hd with h | h
      · subst h; exact Nat.mod_lt _ (by omega)
      · exact ih ((n + 1) / 10) (Nat.div_lt_self (Nat.succ_pos n) (by omega)) d h

theorem natDigits_ne_nil {n : Nat} (h : n ≠ 0) : natDigits n ≠ [] := by
  match n with
  | 0 => exact absurd rfl h
  | n + 1 => rw [natDigits_succ]; exact List.cons_ne_nil _ _

/-- The character for one decimal digit. -/
def digitChar : Nat → Char
  | 0 => '0' | 1 => '1' | 2 => '2' | 3 => '3' | 4 => '4'
  | 5 => '5' | 6 => '6' | 7 => '7' | 8 => '8' | 9 => '9'
  | _ => '*'

theorem digitChar_inj : ∀ a < 10, ∀ b < 10, digitChar a = digitChar b → a = b := by
  decide

theorem mapDigit_inj : ∀ l₁ l₂ : List Nat, (∀ d ∈ l₁, d < 10) → (∀ d ∈ l₂, d < 10) →
    l₁.map digitChar = l₂.map digitChar → l₁ = l₂ := by
  intro l₁
  induction l₁ with
  | nil => intro l₂ _ _ h; cases l₂ <;> simp_all
  | cons a t ih =>
    intro l₂ h₁ h₂ h
    cases l₂ with
    | nil => simp at h
    | cons b t₂ =>
      simp only [List.map_cons, List.cons.injEq] at h
      have ha : a = b := digitChar_inj a (h₁ a (.head _)) b (h₂ b (.head _)) h.1
      have ht : t = t₂ := ih t₂ (fun d hd => h₁ d (.tail _ hd))
        (fun d hd => h₂ d (.tail _ hd)) h.2
      rw [ha, ht]

/-- Decimal rendering, as Python's `str` on a nonnegative integer. -/
def natStr (n : Nat) : String :=
  if n = 0 then "0" else ⟨((natDigits n).map digitChar).reverse⟩

theorem natStr_inj : ∀ a b : Nat, natStr a = natStr b → a = b := by
  have key : ∀ a b : Nat, a ≠ 0 → b ≠ 0 → natStr a = natStr b → a = b := by
    intro a b ha hb h
    rw [natStr, natStr, if_neg ha, if_neg hb, String.ext_iff] at h
    have hd : natDigits a = natDigits b := by
      apply mapDigit_inj _ _ (natDigits_lt10 a) (natDigits_lt10 b)
      exact List.reverse_injective h
    calc a = unDigits (natDigits a) := (unDigits_natDigits a).symm
      _ = unDigits (natDigits b) := by rw [hd]
      _ = b := unDigits_natDigits b
  have zero : ∀ b : Nat, b ≠ 0 → natStr 0 = natStr b → False := by
    intro b hb h
    rw [natStr, natStr, if_pos rfl, if_neg hb, String.ext_iff] at h
    have h0 : ("0" : String).data = ['0'] := rfl
    rw [h0] at h
    have hmap : (natDigits b).map digitChar = ['0'] := by
      have := congrArg List.reverse h
      simpa using this.symm
    rcases hnd : natDigits b with _ | ⟨d, t⟩
    · rw [hnd] at hmap; simp at hmap
    · rw [hnd] at hmap
      simp only [List.map_cons, List.cons.injEq] at hmap
      have ht : t = [] := List.map_eq_nil_iff.mp hmap.2
      have hlt : d < 10 := natDigits_lt10 b d (by rw [hnd]; exact .head _)
      have hd0 : d = 0 := digitChar_inj d hlt 0 (by omega) hmap.1
      have := unDigits_natDigits b
      rw [hnd, ht, hd0] at this
      simp [unDigits] at this
      exact hb this.symm
  intro a b h
  by_cases ha : a = 0 <;> by_cases hb : b = 0
  · rw [ha, hb]
  · exact absurd (ha ▸ h) (fun hh => zero b hb hh)
  · exact absurd (hb ▸ h.symm) (fun hh => zero a ha hh)
  · exact key a b ha hb h

/-! ## The document algebra

Modelled from the spec: the abstract document algebra of `util.pretty`
(literal text, soft line, hard break, group, nest, sequencing), which the
printers in `transform.py` consume.  `flatten` is the single-line rendering
(every group fits: a soft line is a space, a hard break is taken only when
the enclosing content does not fit, hence contributes nothing). -/

inductive Doc where
  | text (s : String)
  | line
  | lbreak
  | seqn (ds : List Doc)
  | group (d : Doc)
  | nest (n : Nat) (d : Doc)

mutual

def flatten : Doc → String
  | .text s => s
  | .line => " "
  | .lbreak => ""
  | .group d => flatten d
  | .nest _ d => flatten d
  | .seqn ds => flattenL ds

def flattenL : List Doc → String
  | [] => ""
  | d :: ds => flatten d ++ flattenL ds

end

/-- Join a list of documents with a separator document (`sep.join(docs)`). -/
def joinDocs (sep : Doc) : List Doc → List Doc
  | [] => []
  | [d] => [d]
  | d :: ds => d :: sep :: joinDocs sep ds

/-! ## The term DAG

Modelled from the spec: the term variants of module `language` (§3 of the
spec): inputs, instructions, constants (literals and symbolic constants),
binary connective expressions, comparisons and function-style predicates.
Terms live in an arena; a node's operand indices are strictly smaller than
its own index, which expresses the finite-acyclic-graph invariant. -/

inductive TermKind where
  | input (nm : String)
  | instr (nm : String) (code : String) (flags : List String)
  | literal (val : Int)
  | symbol (nm : String)
  | cnxp (code : String)
  | comparison (op : String)
  | funPred (code : String)
deriving DecidableEq

def TermKind.isInstruction : TermKind → Bool
  | .instr .. => true
  | _ => false

def TermKind.isConstant : TermKind → Bool
  | .literal _ => true
  | .symbol _ => true
  | _ => false

def TermKind.isSymbol : TermKind → Bool
  | .symbol _ => true
  | _ => false

def TermKind.isInput : TermKind → Bool
  | .input _ => true
  | _ => false

/-- The `.name` attribute carried by some terms (empty when absent). -/
def TermKind.nameAttr : TermKind → String
  | .input nm => nm
  | .instr nm _ _ => nm
  | .symbol nm => nm
  | _ => ""

structure Node where
  kind : TermKind
  args : List Nat
deriving DecidableEq

/-- Operand indices point strictly downward: the graph is acyclic. -/
def wfNodes (nodes : List Node) : Bool :=
  nodes.enum.all fun p => p.2.args.all fun j => j < p.1

structure TermGraph where
  nodes : List Node
  wf : wfNodes nodes = true

def deadNode : Node := ⟨.input "", []⟩

def TermGraph.nodeAt (g : TermGraph) (i : Nat) : Node :=
  (g.nodes.get? i).getD deadNode

def TermGraph.kindAt (g : TermGraph) (i : Nat) : TermKind :=
  (g.nodeAt i).kind

def TermGraph.argsOf (g : TermGraph) (i : Nat) : List Nat :=
  (g.nodeAt i).args

theorem mem_argsOf_lt (g : TermGraph) {i j : Nat} (h : j ∈ g.argsOf i) : j < i := by
  have hw := g.wf
  rw [wfNodes, List.all_eq_true] at hw
  unfold TermGraph.argsOf TermGraph.nodeAt at h
  cases hg : g.nodes.get? i with
  | none => rw [hg] at h; simp [deadNode] at h
  | some n =>
    rw [hg] at h
    simp only [Option.getD_some] at h
    have hmem : (i, n) ∈ g.nodes.enum := by
      rw [List.mem_enum_iff_getElem?]
      rw [List.get?_eq_getElem?] at hg
      exact hg
    have := hw (i, n) hmem
    rw [List.all_eq_true] at this
    have := this j h
    simpa using this

/-! ## The Formatter (naming state) -/

structure Fmt where
  ids : List (Nat × String)
  names : List String
  fresh : Nat
deriving DecidableEq

def Fmt.init : Fmt := ⟨[], [], 0⟩

/-- `term in self.ids` / `self.ids[term]`. -/
def Fmt.lookupId (fmt : Fmt) (t : Nat) : Option String :=
  (fmt.ids.find? fun p => p.1 == t).map (·.2)

/-- There is always a counter value whose synthesized name is unused. -/
theorem exFree (names : List String) (pfx : String) (fresh : Nat) :
    ∃ k, pfx ++ natStr (fresh + k) ∉ names := by
  by_contra hall
  push_neg at hall
  have hinj : Function.Injective fun k => pfx ++ natStr (fresh + k) := by
    intro x y hxy
    simp only [String.ext_iff, String.data_append, List.append_cancel_left_eq] at hxy
    have := natStr_inj _ _ (String.ext hxy)
    omega
  have hsub : (Finset.range (names.length + 1)).image
      (fun k => pfx ++ natStr (fresh + k)) ⊆ names.toFinset := by
    intro s hs
    rw [Finset.mem_image] at hs
    obtain ⟨k, _, hk⟩ := hs
    rw [List.mem_toFinset]
    exact hk ▸ hall k
  have hcard := Finset.card_le_card hsub
  rw [Finset.card_image_of_injective _ hinj, Finset.card_range] at hcard
  have := names.toFinset_card_le
  omega

/-- The collision-avoidance loop of `Formatter.name`:
`while name in self.names: name = prefix + str(fresh); fresh += 1`. -/
def avoidClash (names : List String) (pfx : String) (name : String) (fresh : Nat) :
    String × Nat :=
  if name ∈ names then avoidClash names pfx (pfx ++ natStr fresh) (fresh + 1)
  else (name, fresh)
termination_by (if name ∈ names then Nat.find (exFree names pfx fresh) + 1 else 0)
decreasing_by
  rename_i hmem
  simp only [if_pos hmem]
  by_cases hnew : pfx ++ natStr fresh ∈ names
  · rw [if_pos hnew]
    have hN : 0 < Nat.find (exFree names pfx fresh) := by
      rw [Nat.lt_find_iff]
      intro m hm
      simp only [Nat.le_zero] at hm
      subst hm
      simpa using hnew
    have hle : Nat.find (exFree names pfx (fresh + 1)) ≤
        Nat.find (exFree names pfx fresh) - 1 := by
      apply Nat.find_le
      have := Nat.find_spec (exFree names pfx fresh)
      have harith : fresh + 1 + (Nat.find (exFree names pfx fresh) - 1) =
          fresh + Nat.find (exFree names pfx fresh) := by omega
      rw [harith]
      exact this
    omega
  · rw [if_neg hnew]
    omega

/-- `Formatter.name`: return the previously assigned name, or synthesize a
fresh one (user-given names preferred, collisions skipped). -/
def Fmt.name (g : TermGraph) (fmt : Fmt) (t : Nat) : String × Fmt :=
  match fmt.lookupId t with
  | some nm => (nm, fmt)
  | none =>
    let pfx := if (g.kindAt t).isConstant then "C" else "%"
    let start :=
      if ((g.kindAt t).isInput || (g.kindAt t).isInstruction) &&
          (g.kindAt t).nameAttr ≠ "" then
        ((g.kindAt t).nameAttr, fmt.fresh)
      else
        (pfx ++ natStr fmt.fresh, fmt.fresh + 1)
    let res := avoidClash fmt.names pfx start.1 start.2
    (res.1, ⟨(t, res.1) :: fmt.ids, res.1 :: fmt.names, res.2⟩)

/-! ## Naming stability and injectivity (Formatter.name) -/

/-- Invariant of the naming state: distinct map entries have distinct term
identities and distinct names, and every issued name is in the used set. -/
def FmtInv (f : Fmt) : Prop :=
  f.ids.Pairwise (fun p q => p.1 ≠ q.1 ∧ p.2 ≠ q.2) ∧ ∀ p ∈ f.ids, p.2 ∈ f.names

/-- Formatter states arising from `name` calls alone. -/
inductive FmtReach (g : TermGraph) : Fmt → Prop where
  | init : FmtReach g Fmt.init
  | step (f : Fmt) (t : Nat) : FmtReach g f → FmtReach g (Fmt.name g f t).2

theorem avoidClash_not_mem (names : List String) (pfx name : String) (fresh : Nat) :
    (avoidClash names pfx name fresh).1 ∉ names := by
  induction name, fresh using avoidClash.induct names pfx with
  | case1 name fresh hmem ih => rw [avoidClash, if_pos hmem]; exact ih
  | case2 name fresh hmem => rw [avoidClash, if_neg hmem]; exact hmem

theorem lookupId_entry {f : Fmt} {t : Nat} {nm : String}
    (h : f.lookupId t = some nm) : (t, nm) ∈ f.ids := by
  unfold Fmt.lookupId at h
  rw [Option.map_eq_some'] at h
  obtain ⟨p, hf, hp2⟩ := h
  have hm := List.mem_of_find?_eq_some hf
  have hp := List.find?_some hf
  simp only [beq_iff_eq] at hp
  have : p = (t, nm) := by cases p; simp_all
  exact this ▸ hm

theorem lookupId_none {f : Fmt} {t : Nat} (h : f.lookupId t = none) :
    ∀ p ∈ f.ids, p.1 ≠ t := by
  unfold Fmt.lookupId at h
  simp only [Option.map_eq_none'] at h
  have := List.find?_eq_none.mp h
  intro p hp
  have := this p hp
  simpa using this

/-- The name returned by `name` is recorded in the resulting state. -/
theorem name_lookup_after (g : TermGraph) (f : Fmt) (t : Nat) :
    (Fmt.name g f t).2.lookupId t = some (Fmt.name g f t).1 := by
  unfold Fmt.name
  cases h : f.lookupId t with
  | some nm => simp [h]
  | none => simp [h, Fmt.lookupId]

/-- A `name` call preserves the naming invariant. -/
theorem name_preserves_inv (g : TermGraph) (f : Fmt) (t : Nat) (hf : FmtInv f) :
    FmtInv (Fmt.name g f t).2 := by
  unfold Fmt.name
  cases h : f.lookupId t with
  | some nm => simpa using hf
  | none =>
    simp only
    constructor
    · rw [List.pairwise_cons]
      refine ⟨?_, hf.1⟩
      intro p hp
      constructor
      · exact fun hc => lookupId_none h p hp (hc.symm)
      · intro hc
        exact avoidClash_not_mem f.names _ _ _ (hc ▸ hf.2 p hp)
    · intro p hp
      rcases List.mem_cons.mp hp with hh | hh
      · rw [hh]; exact .head _
      · exact .tail _ (hf.2 p hh)

theorem fmtReach_inv {g : TermGraph} {f : Fmt} (h : FmtReach g f) : FmtInv f := by
  induction h with
  | init => exact ⟨List.Pairwise.nil, by intro p hp; simp [Fmt.init] at hp⟩
  | step f t _ ih => exact name_preserves_inv g f t ih

theorem name_mem_names (g : TermGraph) (f : Fmt) (t : Nat) (hf : FmtInv f) :
    (Fmt.name g f t).1 ∈ (Fmt.name g f t).2.names := by
  unfold Fmt.name
  cases h : f.lookupId t with
  | some nm =>
    simp only
    exact hf.2 _ (lookupId_entry h)
  | none => simp

/-- A second `name` call on a fresh state never reuses an issued name. -/
theorem name_fresh_ne (g : TermGraph) (f : Fmt) (s t : Nat) (hf : FmtInv f)
    (hst : s ≠ t) : (Fmt.name g (Fmt.name g f s).2 t).1 ≠ (Fmt.name g f s).1 := by
  set f1 := (Fmt.name g f s).2 with hf1
  set ns := (Fmt.name g f s).1 with hns
  have hinv1 : FmtInv f1 := name_preserves_inv g f s hf
  have hlook : f1.lookupId s = some ns := name_lookup_after g f s
  have hsmem : (s, ns) ∈ f1.ids := lookupId_entry hlook
  have hnames : ns ∈ f1.names := name_mem_names g f s hf
  unfold Fmt.name
  cases h : f1.lookupId t with
  | some nt =>
    simp only
    intro hc
    subst hc
    have htmem : (t, ns) ∈ f1.ids := lookupId_entry h
    have hsymm : Symmetric (fun p q : Nat × String => p.1 ≠ q.1 ∧ p.2 ≠ q.2) := by
      intro p q hpq
      exact ⟨hpq.1.symm, hpq.2.symm⟩
    have hpair := List.Pairwise.forall hsymm hinv1.1
    have hne : (s, ns) ≠ (t, ns) := by
      intro hc; exact hst (congrArg Prod.fst hc)
    exact (hpair hsmem htmem hne).2 rfl
  | none =>
    simp only
    intro hc
    exact avoidClash_not_mem f1.names _ _ _ (hc ▸ hnames)

theorem name_of_lookup (g : TermGraph) {f : Fmt} {t : Nat} {nm : String}
    (h : f.lookupId t = some nm) : (Fmt.name g f t).1 = nm := by
  unfold Fmt.name
  rw [h]

/-- C6: Within one Formatter, `name(t)` called twice on the same term identity
returns the same string (assignment is permanent for the life of the
Formatter), and `name` called on two distinct term identities never returns
the same string; the term-to-name map stays injective and consistent with the
used-name set under every sequence of `name()` calls. -/
theorem claim_C6 (g : TermGraph) (f : Fmt) (hf : FmtReach g f) (s t : Nat) :
    (Fmt.name g (Fmt.name g f s).2 s).1 = (Fmt.name g f s).1 ∧
    (s ≠ t → (Fmt.name g (Fmt.name g f s).2 t).1 ≠ (Fmt.name g f s).1) ∧
    (∀ p ∈ f.ids, ∀ q ∈ f.ids, p.1 ≠ q.1 → p.2 ≠ q.2) ∧
    (∀ p ∈ f.ids, p.2 ∈ f.names) := by
  have hinv : FmtInv f := fmtReach_inv hf
  refine ⟨name_of_lookup g (name_lookup_after g f s),
    fun hst => name_fresh_ne g f s t hinv hst, ?_, hinv.2⟩
  intro p hp q hq hpq
  have hsymm : Symmetric (fun p q : Nat × String => p.1 ≠ q.1 ∧ p.2 ≠ q.2) := by
    intro p q hpq
    exact ⟨hpq.1.symm, hpq.2.symm⟩
  have hne : p ≠ q := fun hc => hpq (congrArg Prod.fst hc)
  exact (List.Pairwise.forall hsymm hinv.1 hp hq hne).2

/-- A small concrete term graph used by witnesses: an input and an
instruction using it twice. -/
def gW : TermGraph := ⟨[⟨.input "x", []⟩, ⟨.instr "" "add" [], [0, 0]⟩], by decide⟩

theorem claim_C6_witness :
    FmtReach gW Fmt.init ∧ (0 : Nat) ≠ 1 ∧
      (Fmt.name gW (Fmt.name gW Fmt.init 0).2 0).1 = (Fmt.name gW Fmt.init 0).1 ∧
      (Fmt.name gW (Fmt.name gW Fmt.init 0).2 1).1 ≠ (Fmt.name gW Fmt.init 0).1 :=
  ⟨FmtReach.init, by decide, (claim_C6 gW Fmt.init FmtReach.init 0 1).1,
    (claim_C6 gW Fmt.init FmtReach.init 0 1).2.1 (by decide)⟩

/-! ## Dispatch-based printers

The per-kind printers of `transform.py`, with the implicit mutation of the
formatter modelled as explicit state passing.  Literal rendering uses the
decimal rendering above; the instruction printer follows the
`BinaryOperator` printer (instructions in this model are binary; the type
annotation slot is not modelled, so `operand` is called without a type). -/

/-- The per-operator precedence table `_bin_cnxp_prec`. -/
def binCnxpPrec (code : String) : Nat :=
  if code = "*" ∨ code = "/" ∨ code = "/u" ∨ code = "%" ∨ code = "%u" then 9
  else if code = "+" ∨ code = "-" then 8
  else if code = ">>" ∨ code = "<<" ∨ code = "u>>" then 7
  else if code = "&" then 6
  else if code = "^" then 5
  else if code = "|" then 4
  else if code = "&&" then 2
  else if code = "||" then 1
  else 0

/-- The left-associative-only operators `_bin_cnxp_lassoc`. -/
def binCnxpLassoc : List String := ["-", "/", "/u", "%", "%u", "<<", ">>", "u>>"]

/-- The comparison code table `_cmp_codes`. -/
def cmpCodes (op : String) : String :=
  if op = "eq" then "==" else if op = "ne" then "!="
  else if op = "slt" then "<" else if op = "sle" then "<="
  else if op = "sgt" then ">" else if op = "sge" then ">="
  else if op = "ult" then "u<" else if op = "ule" then "u<="
  else if op = "ugt" then "u>" else if op = "uge" then "u>=" else "?"

/-- Python `str` on an integer literal value. -/
def intStr (v : Int) : String :=
  if v < 0 then "-" ++ natStr v.natAbs else natStr v.toNat

/-- The code of a binary connective term, if it is one. -/
def cnxpCode (g : TermGraph) (i : Nat) : Option String :=
  match g.kindAt i with
  | .cnxp code => some code
  | _ => none

theorem cnxpCode_eq {g : TermGraph} {i : Nat} {code : String}
    (h : cnxpCode g i = some code) : g.kindAt i = .cnxp code := by
  unfold cnxpCode at h
  cases hk : g.kindAt i <;> rw [hk] at h <;> simp_all

mutual

/-- `Formatter.operand`: use the name for this term, if any, or format it. -/
def operandD (g : TermGraph) (i : Nat) (fmt : Fmt) (prec : Nat) (ty : Option String) :
    Doc × Fmt :=
  let p :=
    if (fmt.lookupId i).isSome || (g.kindAt i).isInstruction then
      let q := Fmt.name g fmt i
      (Doc.text q.1, q.2)
    else
      formatDoc g i fmt prec
  match ty with
  | none => p
  | some t => (Doc.seqn [Doc.text t, Doc.text " ", p.1], p.2)
termination_by (i, 2, 0)
decreasing_by
  simp_wf
  exact Prod.Lex.right i (Prod.Lex.left _ _ (by omega))

/-- `format_doc`, dispatched on the term kind. -/
def formatDoc (g : TermGraph) (i : Nat) (fmt : Fmt) (prec : Nat) : Doc × Fmt :=
  match hk : g.kindAt i with
  | .input _ =>
    let q := Fmt.name g fmt i
    (Doc.text q.1, q.2)
  | .instr _ code flags =>
    match ha : g.argsOf i with
    | [x, y] =>
      have hx : x < i := mem_argsOf_lt g (by rw [ha]; simp)
      have hy : y < i := mem_argsOf_lt g (by rw [ha]; simp)
      let px := operandD g x fmt 0 none
      let py := operandD g y px.2 0 none
      (Doc.nest (code.length + 1) (Doc.group (Doc.seqn
        [Doc.text code, Doc.text " ",
         if flags.isEmpty then Doc.seqn []
         else Doc.seqn [Doc.seqn (joinDocs (Doc.text " ") (flags.map Doc.text)),
                        Doc.text " "],
         px.1, Doc.text ",", Doc.line, py.1])), py.2)
    | _ => (Doc.text code, fmt)
  | .literal v => (Doc.text (intStr v), fmt)
  | .symbol nm => (Doc.text nm, fmt)
  | .cnxp code =>
    let opPrec := binCnxpPrec code
    let p := gatherCnxp g opPrec i fmt
    let body :=
      if opPrec ≤ prec ∨ (0 < prec ∧ prec < 8) then
        Doc.seqn [Doc.text "(", p.1, Doc.text ")"]
      else p.1
    (Doc.nest 2 (Doc.group body), p.2)
  | .comparison op =>
    match ha : g.argsOf i with
    | [x, y] =>
      have hx : x < i := mem_argsOf_lt g (by rw [ha]; simp)
      have hy : y < i := mem_argsOf_lt g (by rw [ha]; simp)
      let px := operandD g x fmt 3 none
      let py := operandD g y px.2 3 none
      let body := Doc.seqn [Doc.nest 3 px.1, Doc.line, Doc.text (cmpCodes op),
        Doc.text " ", Doc.nest 3 py.1]
      let body :=
        if 3 < prec then Doc.seqn [Doc.text "(", body, Doc.text ")"] else body
      (Doc.group body, py.2)
    | _ => (Doc.text (cmpCodes op), fmt)
  | .funPred code =>
    let p := operandSeq g i (g.argsOf i).attach fmt
    (Doc.nest 2 (Doc.group (Doc.seqn
      ([Doc.text code, Doc.text "("] ++
       (if (g.argsOf i).isEmpty then [] else [Doc.lbreak]) ++
       [Doc.seqn (joinDocs (Doc.seqn [Doc.text ",", Doc.line]) p.1),
        Doc.text ")"]))), p.2)
termination_by (i, 1, 0)
decreasing_by
  all_goals simp_wf
  · exact Prod.Lex.left _ _ hx
  · exact Prod.Lex.left _ _ hy
  · simp only [cnxpCode, hk]
    exact Prod.Lex.right i (Prod.Lex.left _ _ (by simp))
  · exact Prod.Lex.left _ _ hx
  · exact Prod.Lex.left _ _ hy
  · exact Prod.Lex.right i (Prod.Lex.left _ _ (by omega))

/-- The local `gather` of the `BinaryCnxp` printer: flatten runs of the
same operator precedence into one chain. -/
def gatherCnxp (g : TermGraph) (opPrec : Nat) (i : Nat) (fmt : Fmt) : Doc × Fmt :=
  match hc : cnxpCode g i, ha : g.argsOf i with
  | some code, [x, y] =>
    if hp : opPrec = binCnxpPrec code then
      have hx : x < i := mem_argsOf_lt g (by rw [ha]; simp)
      have hy : y < i := mem_argsOf_lt g (by rw [ha]; simp)
      let px := gatherCnxp g opPrec x fmt
      let py :=
        if code ∈ binCnxpLassoc then operandD g y px.2 opPrec none
        else gatherCnxp g opPrec y px.2
      (Doc.seqn [px.1, Doc.line, Doc.text code, Doc.text " ", py.1], py.2)
    else operandD g i fmt opPrec none
  | some code, _ =>
    if opPrec = binCnxpPrec code then
      (Doc.seqn [], fmt)
    else operandD g i fmt opPrec none
  | none, _ => operandD g i fmt opPrec none
termination_by (i,
  (match cnxpCode g i with
   | some code => if opPrec = binCnxpPrec code then 0 else 3
   | none => 3), 0)
decreasing_by
  all_goals simp_wf
  · exact Prod.Lex.left _ _ hx
  · exact Prod.Lex.left _ _ hy
  · exact Prod.Lex.left _ _ hy
  · simp only [hc]
    exact Prod.Lex.right i (Prod.Lex.left _ _ (by simp [hp]))
  · rename_i hp
    simp only [hc]
    exact Prod.Lex.right i (Prod.Lex.left _ _ (by simp [hp]))
  · simp only [hc]
    exact Prod.Lex.right i (Prod.Lex.left _ _ (by simp))

/-- Format a list of operands at precedence 0, threading the formatter. -/
def operandSeq (g : TermGraph) (i : Nat) (l : List {x // x ∈ g.argsOf i})
    (fmt : Fmt) : List Doc × Fmt :=
  match l with
  | [] => ([], fmt)
  | a :: rest =>
    have ha : a.1 < i := mem_argsOf_lt g a.2
    let p := operandD g a.1 fmt 0 none
    let q := operandSeq g i rest p.2
    (p.1 :: q.1, q.2)
termination_by (i, 0, l.length + 1)
decreasing_by
  all_goals simp_wf
  · exact Prod.Lex.left _ _ ha
  · exact Prod.Lex.right i (Prod.Lex.right 0 (by simp))

end


/-! Unfolding lemmas for the printers, one per dispatch case. -/

theorem operandD_named {g : TermGraph} {i : Nat} {fmt : Fmt} (prec : Nat)
    (h : ((fmt.lookupId i).isSome || (g.kindAt i).isInstruction) = true) :
    operandD g i fmt prec none =
      (Doc.text (Fmt.name g fmt i).1, (Fmt.name g fmt i).2) := by
  rw [operandD]
  simp [h]

theorem operandD_inline {g : TermGraph} {i : Nat} {fmt : Fmt} (prec : Nat)
    (h : ((fmt.lookupId i).isSome || (g.kindAt i).isInstruction) = false) :
    operandD g i fmt prec none = formatDoc g i fmt prec := by
  rw [operandD]
  simp [h]

theorem formatDoc_input {g : TermGraph} {i : Nat} {nm : String} (fmt : Fmt)
    (prec : Nat) (hk : g.kindAt i = .input nm) :
    formatDoc g i fmt prec =
      (Doc.text (Fmt.name g fmt i).1, (Fmt.name g fmt i).2) := by
  rw [formatDoc]
  split <;> simp_all

theorem formatDoc_literal {g : TermGraph} {i : Nat} {v : Int} (fmt : Fmt)
    (prec : Nat) (hk : g.kindAt i = .literal v) :
    formatDoc g i fmt prec = (Doc.text (intStr v), fmt) := by
  rw [formatDoc]
  split <;> simp_all

theorem formatDoc_symbol {g : TermGraph} {i : Nat} {nm : String} (fmt : Fmt)
    (prec : Nat) (hk : g.kindAt i = .symbol nm) :
    formatDoc g i fmt prec = (Doc.text nm, fmt) := by
  rw [formatDoc]
  split <;> simp_all

theorem formatDoc_cnxp {g : TermGraph} {i : Nat} {code : String} (fmt : Fmt)
    (prec : Nat) (hk : g.kindAt i = .cnxp code) :
    formatDoc g i fmt prec =
      (Doc.nest 2 (Doc.group
        (if binCnxpPrec code ≤ prec ∨ (0 < prec ∧ prec < 8) then
          Doc.seqn [Doc.text "(", (gatherCnxp g (binCnxpPrec code) i fmt).1,
            Doc.text ")"]
        else (gatherCnxp g (binCnxpPrec code) i fmt).1)),
       (gatherCnxp g (binCnxpPrec code) i fmt).2) := by
  rw [formatDoc]
  split <;> simp_all

theorem gatherCnxp_run {g : TermGraph} {i x y : Nat} {code : String} (fmt : Fmt)
    (hc : cnxpCode g i = some code) (ha : g.argsOf i = [x, y]) :
    gatherCnxp g (binCnxpPrec code) i fmt =
      (Doc.seqn [(gatherCnxp g (binCnxpPrec code) x fmt).1, Doc.line,
        Doc.text code, Doc.text " ",
        (if code ∈ binCnxpLassoc then
          operandD g y (gatherCnxp g (binCnxpPrec code) x fmt).2
            (binCnxpPrec code) none
        else
          gatherCnxp g (binCnxpPrec code) y
            (gatherCnxp g (binCnxpPrec code) x fmt).2).1],
       (if code ∈ binCnxpLassoc then
          operandD g y (gatherCnxp g (binCnxpPrec code) x fmt).2
            (binCnxpPrec code) none
        else
          gatherCnxp g (binCnxpPrec code) y
            (gatherCnxp g (binCnxpPrec code) x fmt).2).2) := by
  rw [gatherCnxp]
  split <;> simp_all <;> split <;> simp_all

theorem gatherCnxp_nonCnxp {g : TermGraph} {i : Nat} (opPrec : Nat) (fmt : Fmt)
    (hc : cnxpCode g i = none) :
    gatherCnxp g opPrec i fmt = operandD g i fmt opPrec none := by
  rw [gatherCnxp]
  split <;> simp_all

theorem gatherCnxp_precMiss {g : TermGraph} {i : Nat} {code : String}
    (opPrec : Nat) (fmt : Fmt) (hc : cnxpCode g i = some code)
    (hp : opPrec ≠ binCnxpPrec code) :
    gatherCnxp g opPrec i fmt = operandD g i fmt opPrec none := by
  rw [gatherCnxp]
  split <;> simp_all

theorem flatten_paren (d : Doc) :
    flatten (Doc.seqn [Doc.text "(", d, Doc.text ")"]) =
      "(" ++ flatten d ++ ")" := by
  rw [flatten, flattenL, flattenL, flattenL, flattenL, flatten, flatten]
  rw [String.ext_iff]
  simp [String.data_append]

theorem flatten_nest_group (n : Nat) (d : Doc) :
    flatten (Doc.nest n (Doc.group d)) = flatten d := by
  rw [flatten, flatten]

/-- C1 (amended): the `BinaryCnxp` printer renders the operator chain and
parenthesizes it iff the enclosing precedence is at least the operator's
table precedence, or the enclosing precedence lies strictly between 0 and 8;
in particular a multiplicative sub-expression inside an additive expression
(enclosing precedence 8) is unparenthesized and an additive sub-expression
inside a multiplicative expression (enclosing precedence 9) is
parenthesized, but a connective at any enclosing precedence strictly
between 0 and 8 (e.g. an additive comparison operand, precedence 3) is
parenthesized even though that precedence is below the operator's. -/
theorem claim_C1 (g : TermGraph) (i : Nat) (code : String) (fmt : Fmt)
    (prec : Nat) (hk : g.kindAt i = .cnxp code) (hcode : 0 < binCnxpPrec code) :
    flatten (formatDoc g i fmt prec).1 =
      (if binCnxpPrec code ≤ prec ∨ (0 < prec ∧ prec < 8) then
        "(" ++ flatten (formatDoc g i fmt 0).1 ++ ")"
      else flatten (formatDoc g i fmt 0).1) ∧
    (formatDoc g i fmt prec).2 = (formatDoc g i fmt 0).2 := by
  rw [formatDoc_cnxp fmt prec hk, formatDoc_cnxp fmt 0 hk]
  have h0 : ¬(binCnxpPrec code ≤ 0 ∨ (0 < 0 ∧ 0 < 8)) := by omega
  rw [if_neg h0]
  refine ⟨?_, rfl⟩
  by_cases hp : binCnxpPrec code ≤ prec ∨ (0 < prec ∧ prec < 8)
  · simp only [if_pos hp, flatten_nest_group, flatten_paren]
  · simp only [if_neg hp, flatten_nest_group]

/-- Concrete graph for C1: the additive connective `1 + 2`. -/
def gC1 : TermGraph := ⟨[⟨.literal 1, []⟩, ⟨.literal 2, []⟩, ⟨.cnxp "+", [0, 1]⟩],
  by decide⟩

/-- C1 as stated is false: an additive connective expression printed at
enclosing precedence 3 (strictly below its table precedence 8, as for a
comparison operand) is parenthesized, while at enclosing precedence 0 it is
not. -/
theorem claim_C1_counterexample :
    3 < binCnxpPrec "+" ∧
    flatten (formatDoc gC1 2 Fmt.init 3).1 = "(1 + 2)" ∧
    flatten (formatDoc gC1 2 Fmt.init 0).1 = "1 + 2" := by
  have h1 : intStr 1 = "1" := by decide
  have h2 : intStr 2 = "2" := by decide
  have hbody : flatten (gatherCnxp gC1 (binCnxpPrec "+") 2 Fmt.init).1 = "1 + 2" := by
    rw [gatherCnxp_run Fmt.init (show cnxpCode gC1 2 = some "+" from rfl)
      (show gC1.argsOf 2 = [0, 1] from rfl)]
    rw [gatherCnxp_nonCnxp (binCnxpPrec "+") Fmt.init
      (show cnxpCode gC1 0 = none from rfl)]
    rw [operandD_inline (binCnxpPrec "+") (by rfl)]
    rw [formatDoc_literal Fmt.init (binCnxpPrec "+")
      (show gC1.kindAt 0 = .literal 1 from rfl)]
    have hno : ("+" ∈ binCnxpLassoc) = False := by
      simp [binCnxpLassoc]
    rw [if_neg (by simp [binCnxpLassoc])]
    rw [gatherCnxp_nonCnxp (binCnxpPrec "+") Fmt.init
      (show cnxpCode gC1 1 = none from rfl)]
    rw [operandD_inline (binCnxpPrec "+") (by rfl)]
    rw [formatDoc_literal Fmt.init (binCnxpPrec "+")
      (show gC1.kindAt 1 = .literal 2 from rfl)]
    rw [h1, h2]
    rw [flatten, flattenL, flattenL, flattenL, flattenL, flattenL, flattenL]
    rw [flatten, flatten, flatten, flatten, flatten]
    rw [String.ext_iff]
    simp [String.data_append]
  have hk : gC1.kindAt 2 = .cnxp "+" := rfl
  refine ⟨by decide, ?_, ?_⟩
  · rw [formatDoc_cnxp Fmt.init 3 hk, if_pos (by decide)]
    rw [flatten_nest_group, flatten_paren, hbody]
    rfl
  · rw [formatDoc_cnxp Fmt.init 0 hk, if_neg (by decide)]
    rw [flatten_nest_group, hbody]

theorem claim_C1_witness :
    gC1.kindAt 2 = .cnxp "+" ∧ 0 < binCnxpPrec "+" ∧
    (flatten (formatDoc gC1 2 Fmt.init 9).1 =
      (if binCnxpPrec "+" ≤ 9 ∨ (0 < 9 ∧ 9 < 8) then
        "(" ++ flatten (formatDoc gC1 2 Fmt.init 0).1 ++ ")"
      else flatten (formatDoc gC1 2 Fmt.init 0).1) ∧
    (formatDoc gC1 2 Fmt.init 9).2 = (formatDoc gC1 2 Fmt.init 0).2) :=
  ⟨rfl, by decide,
    claim_C1 gC1 2 "+" Fmt.init 9 rfl (by decide)⟩

/-! ## get_insts: topological listing of instructions -/

mutual

/-- The inner `walk` of `get_insts`: skip seen or non-Instruction nodes,
mark seen, recurse into operands, then append the node. -/
def giWalk (g : TermGraph) (i : Nat) (acc : List Nat × List Nat) :
    List Nat × List Nat :=
  if i ∈ acc.2 ∨ ¬ (g.kindAt i).isInstruction then acc
  else
    let acc2 := giWalkList g (g.argsOf i) i (fun x hx => mem_argsOf_lt g hx)
      (acc.1, i :: acc.2)
    (acc2.1 ++ [i], acc2.2)
termination_by (i, 1, 0)
decreasing_by
  simp_wf
  exact Prod.Lex.right i (Prod.Lex.left _ _ (by omega))

def giWalkList (g : TermGraph) (l : List Nat) (b : Nat) (hb : ∀ x ∈ l, x < b)
    (acc : List Nat × List Nat) : List Nat × List Nat :=
  match l with
  | [] => acc
  | a :: rest =>
    have hlt : a < b := hb a (.head _)
    giWalkList g rest b (fun x hx => hb x (.tail _ hx)) (giWalk g a acc)
termination_by (b, 0, l.length)
decreasing_by
  all_goals simp_wf
  · exact Prod.Lex.left _ _ hlt
  · exact Prod.Lex.right b (Prod.Lex.right 0 (by omega))

end

/-- `get_insts`. -/
def getInsts (g : TermGraph) (v : Nat) : List Nat :=
  (giWalk g v ([], [])).1

/-! ## Reachability along paths of admissible nodes -/

/-- Paths through nodes satisfying `ok` and avoiding `avoid`; endpoints
included.  With `ok` = "is an instruction" this is reachability along
instruction-only paths; with `ok` trivial it is plain reachability. -/
inductive PReach (g : TermGraph) (ok : Nat → Prop) (avoid : Nat → Prop) :
    Nat → Nat → Prop where
  | refl (i : Nat) : ok i → ¬ avoid i → PReach g ok avoid i i
  | step (i j k : Nat) : ok i → ¬ avoid i → j ∈ g.argsOf i →
      PReach g ok avoid j k → PReach g ok avoid i k

theorem preach_src {g ok avoid} {i k : Nat} (h : PReach g ok avoid i k) :
    ok i ∧ ¬ avoid i := by
  cases h with
  | refl _ h1 h2 => exact ⟨h1, h2⟩
  | step _ _ _ h1 h2 _ _ => exact ⟨h1, h2⟩

theorem preach_tgt {g ok avoid} {i k : Nat} (h : PReach g ok avoid i k) :
    ok k ∧ ¬ avoid k := by
  induction h with
  | refl _ h1 h2 => exact ⟨h1, h2⟩
  | step _ _ _ _ _ _ _ ih => exact ih

theorem preach_le {g ok avoid} {i k : Nat} (h : PReach g ok avoid i k) :
    k ≤ i := by
  induction h with
  | refl => exact le_rfl
  | step i j k _ _ hj _ ih => exact le_trans ih (le_of_lt (mem_argsOf_lt g hj))

theorem preach_mono {g ok} {avoid avoid' : Nat → Prop}
    (hsub : ∀ x, avoid' x → avoid x) {i k : Nat}
    (h : PReach g ok avoid i k) : PReach g ok avoid' i k := by
  induction h with
  | refl i h1 h2 => exact .refl i h1 (fun hc => h2 (hsub i hc))
  | step i j k h1 h2 hj _ ih => exact .step i j k h1 (fun hc => h2 (hsub i hc)) hj ih

theorem preach_congr {g ok} {avoid avoid' : Nat → Prop}
    (hiff : ∀ x, avoid x ↔ avoid' x) {i k : Nat} :
    PReach g ok avoid i k ↔ PReach g ok avoid' i k :=
  ⟨preach_mono (fun x hx => (hiff x).mpr hx),
   preach_mono (fun x hx => (hiff x).mp hx)⟩

theorem preach_trans {g ok avoid} {a b c : Nat}
    (h1 : PReach g ok avoid a b) (h2 : PReach g ok avoid b c) :
    PReach g ok avoid a c := by
  induction h1 with
  | refl => exact h2
  | step i j k hok havoid hj _ ih => exact .step i j _ hok havoid hj (ih h2)

/-- Extending the avoided set only above the source preserves reachability,
since paths only descend. -/
theorem preach_avoid_hi {g ok} {avoid avoid' : Nat → Prop} {a k : Nat}
    (h : PReach g ok avoid a k)
    (hhi : ∀ x, avoid' x → avoid x ∨ a < x) : PReach g ok avoid' a k := by
  induction h with
  | refl i h1 h2 =>
    refine .refl i h1 (fun hc => ?_)
    rcases hhi i hc with hc2 | hc2
    · exact h2 hc2
    · omega
  | step i j k h1 h2 hj hr ih =>
    refine .step i j k h1 (fun hc => ?_) hj (ih (fun x hx => ?_))
    · rcases hhi i hc with hc2 | hc2
      · exact h2 hc2
      · omega
    · rcases hhi x hx with hc2 | hc2
      · exact Or.inl hc2
      · exact Or.inr (lt_trans (mem_argsOf_lt g hj) hc2)

/-- Rerouting: a path avoiding `avoid` either also avoids everything
reachable from `a`, or its target is itself reachable from `a`. -/
theorem preach_reroute {g ok} {avoid : Nat → Prop} {a b m : Nat}
    (h : PReach g ok avoid b m) :
    PReach g ok (fun x => avoid x ∨ PReach g ok avoid a x) b m ∨
      PReach g ok avoid a m := by
  induction h with
  | refl i h1 h2 =>
    by_cases hra : PReach g ok avoid a i
    · exact Or.inr hra
    · exact Or.inl (.refl i h1 (fun hc => hc.elim h2 hra))
  | step i j k h1 h2 hj hr ih =>
    by_cases hra : PReach g ok avoid a i
    · exact Or.inr (preach_trans hra (.step i j k h1 h2 hj hr))
    · rcases ih with ih | ih
      · exact Or.inl (.step i j k h1 (fun hc => hc.elim h2 hra) hj ih)
      · exact Or.inr ih

/-- A fully unrestricted path either survives an avoided set or passes
through an avoided node from which the target remains reachable. -/
theorem preach_block {g ok} (avoid : Nat → Prop) {a m : Nat}
    (h : PReach g ok (fun _ => False) a m) :
    PReach g ok avoid a m ∨
      ∃ x, avoid x ∧ PReach g ok (fun _ => False) a x ∧
        PReach g ok (fun _ => False) x m := by
  induction h with
  | refl i h1 _ =>
    by_cases hav : avoid i
    · exact Or.inr ⟨i, hav, .refl i h1 not_false, .refl i h1 not_false⟩
    · exact Or.inl (.refl i h1 hav)
  | step i j k h1 _ hj hr ih =>
    by_cases hav : avoid i
    · exact Or.inr ⟨i, hav, .refl i h1 not_false, .step i j k h1 not_false hj hr⟩
    · rcases ih with ih | ih
      · exact Or.inl (.step i j k h1 hav hj ih)
      · obtain ⟨x, hx1, hx2, hx3⟩ := ih
        exact Or.inr ⟨x, hx1, .step i j x h1 not_false hj hx2, hx3⟩

/-- Instruction-hood as the node admissibility predicate. -/
def okInstr (g : TermGraph) : Nat → Prop := fun n => (g.kindAt n).isInstruction = true

/-- What one walk step guarantees: the instruction list grows by a block `Δ`
of exactly the nodes satisfying `reach`, each new, without duplicates, and
the seen set grows by the same block. -/
def giSpec (g : TermGraph) (start result : List Nat × List Nat)
    (reach : Nat → Prop) : Prop :=
  ∃ Δ, result.1 = start.1 ++ Δ ∧
    (∀ x, x ∈ result.2 ↔ x ∈ start.2 ∨ x ∈ Δ) ∧
    Δ.Nodup ∧
    (∀ x ∈ Δ, x ∉ start.2) ∧
    (∀ x, x ∈ Δ ↔ reach x)

/-- Composing one operand's walk with the walk of the remaining operands. -/
theorem giSpec_step (g : TermGraph) (a : Nat) (rest : List Nat)
    (acc mid fin : List Nat × List Nat)
    (h1 : giSpec g acc mid (fun x => PReach g (okInstr g) (· ∈ acc.2) a x))
    (h2 : giSpec g mid fin
      (fun x => ∃ c ∈ rest, PReach g (okInstr g) (· ∈ mid.2) c x)) :
    giSpec g acc fin
      (fun x => ∃ c ∈ a :: rest, PReach g (okInstr g) (· ∈ acc.2) c x) := by
  obtain ⟨Δ1, h1, h2x, h3, h4, h5⟩ := h1
  obtain ⟨Δ2, k1, k2, k3, k4, k5⟩ := h2
  refine ⟨Δ1 ++ Δ2, ?_, ?_, ?_, ?_, ?_⟩
  · rw [k1, h1, List.append_assoc]
  · intro x
    rw [k2 x, h2x x, List.mem_append]
    tauto
  · rw [List.nodup_append]
    refine ⟨h3, k3, ?_⟩
    intro x hx hx2
    exact k4 x hx2 ((h2x x).mpr (Or.inr hx))
  · intro x hx
    rcases List.mem_append.mp hx with hx | hx
    · exact h4 x hx
    · intro hc
      exact k4 x hx ((h2x x).mpr (Or.inl hc))
  · intro x
    rw [List.mem_append]
    constructor
    · rintro (hx | hx)
      · exact ⟨a, List.mem_cons_self a rest, (h5 x).mp hx⟩
      · obtain ⟨c, hc, hrc⟩ := (k5 x).mp hx
        refine ⟨c, List.mem_cons_of_mem a hc,
          preach_mono (fun y hy => (h2x y).mpr (Or.inl hy)) hrc⟩
    · rintro ⟨c, hc, hrc⟩
      rcases List.mem_cons.mp hc with rfl | hc
      · exact Or.inl ((h5 x).mpr hrc)
      · rcases preach_reroute (a := a) hrc with hre | hre
        · refine Or.inr ((k5 x).mpr ⟨c, hc, ?_⟩)
          refine (preach_congr (fun y => ?_)).mp hre
          rw [h2x y, h5 y]
        · exact Or.inl ((h5 x).mpr hre)

theorem giWalk_spec (g : TermGraph) :
    ∀ (i : Nat) (acc : List Nat × List Nat),
      giSpec g acc (giWalk g i acc)
        (fun x => PReach g (okInstr g) (· ∈ acc.2) i x) := by
  apply giWalk.induct g
    (fun i acc => giSpec g acc (giWalk g i acc)
      (fun x => PReach g (okInstr g) (· ∈ acc.2) i x))
    (fun l b hb acc =>
      giSpec g acc (giWalkList g l b hb acc)
        (fun x => ∃ a ∈ l, PReach g (okInstr g) (· ∈ acc.2) a x))
  · -- early return: seen or not an instruction
    intro i acc h
    refine ⟨[], by rw [giWalk, if_pos h]; simp, by rw [giWalk, if_pos h]; simp,
      List.nodup_nil, by simp, ?_⟩
    intro x
    simp only [List.not_mem_nil, false_iff]
    intro hc
    have := preach_src hc
    rcases h with h | h
    · exact this.2 h
    · exact h this.1
  · -- the node is visited: mark seen, walk the operands, append
    intro i acc h ih
    push_neg at h
    obtain ⟨hseen, hinstr⟩ := h
    obtain ⟨Δ2, h1, h2, h3, h4, h5⟩ := ih
    have hstep : giWalk g i acc =
        ((giWalkList g (g.argsOf i) i (fun x hx => mem_argsOf_lt g hx)
          (acc.1, i :: acc.2)).1 ++ [i],
         (giWalkList g (g.argsOf i) i (fun x hx => mem_argsOf_lt g hx)
          (acc.1, i :: acc.2)).2) := by
      rw [giWalk]
      simp [hseen, hinstr]
    refine ⟨Δ2 ++ [i], ?_, ?_, ?_, ?_, ?_⟩
    · rw [hstep]
      simp only [h1, List.append_assoc]
    · intro x
      rw [hstep]
      simp only [h2 x, List.mem_cons, List.mem_append, List.mem_singleton]
      tauto
    · rw [List.nodup_append]
      refine ⟨h3, List.nodup_singleton i, ?_⟩
      intro x hx
      have := h4 x hx
      simp only [List.mem_singleton]
      intro hc
      exact this (by rw [hc]; exact List.mem_cons_self i acc.2)
    · intro x hx
      rcases List.mem_append.mp hx with hx | hx
      · have := h4 x hx
        intro hc
        exact this (List.mem_cons_of_mem i hc)
      · rw [List.mem_singleton] at hx
        subst hx
        exact hseen
    · intro x
      rw [List.mem_append, List.mem_singleton]
      constructor
      · rintro (hx | rfl)
        · obtain ⟨a, ha, hra⟩ := (h5 x).mp hx
          exact .step i a x hinstr hseen ha
            (preach_mono (fun y hy => List.mem_cons_of_mem i hy) hra)
        · exact .refl x hinstr hseen
      · intro hr
        cases hr with
        | refl _ _ _ => exact Or.inr rfl
        | step _ j _ _ _ hj hrj =>
          refine Or.inl ((h5 x).mpr ⟨j, hj, ?_⟩)
          refine preach_avoid_hi hrj (fun y hy => ?_)
          rcases List.mem_cons.mp hy with rfl | hy
          · exact Or.inr (mem_argsOf_lt g hj)
          · exact Or.inl hy
  · -- empty operand list
    intro b acc hb _
    exact ⟨[], by simp [giWalkList], by simp [giWalkList], List.nodup_nil,
      by simp, by simp⟩
  · -- one operand, then the rest
    intro b acc a rest hb hab _ ih1 ih2
    rw [giWalkList]
    exact giSpec_step g a rest acc _ _ ih1 ih2

/-- The list walk collects exactly what is reachable from some operand. -/
theorem giWalkList_spec (g : TermGraph) :
    ∀ (l : List Nat) (b : Nat) (hb : ∀ x ∈ l, x < b) (acc : List Nat × List Nat),
      giSpec g acc (giWalkList g l b hb acc)
        (fun x => ∃ a ∈ l, PReach g (okInstr g) (· ∈ acc.2) a x) := by
  intro l
  induction l with
  | nil =>
    intro b hb acc
    exact ⟨[], by simp [giWalkList], by simp [giWalkList], List.nodup_nil,
      by simp, by simp⟩
  | cons a rest ih =>
    intro b hb acc
    rw [giWalkList]
    exact giSpec_step g a rest acc _ _ (giWalk_spec g a acc)
      (ih b (fun x hx => hb x (.tail _ hx)) (giWalk g a acc))



/-- Instructions reachable from one of `k`'s operands via instruction-only
paths. -/
def ArgReach (g : TermGraph) (k m : Nat) : Prop :=
  ∃ a ∈ g.argsOf k, PReach g (okInstr g) (fun _ => False) a m

/-- Children-before-parents: everything instruction-reachable from a listed
node's operands appears strictly earlier in the list. -/
def TopoOrdered (g : TermGraph) (l : List Nat) : Prop :=
  ∀ (q : Nat) (hq : q < l.length), ∀ m, ArgReach g l[q] m → m ∈ l.take q

def ReachClosed (g : TermGraph) (l : List Nat) : Prop :=
  ∀ x ∈ l, ∀ m, PReach g (okInstr g) (fun _ => False) x m → m ∈ l

theorem topoOrdered_append (g : TermGraph) (l : List Nat) (k : Nat)
    (h1 : TopoOrdered g l) (h2 : ∀ m, ArgReach g k m → m ∈ l) :
    TopoOrdered g (l ++ [k]) := by
  intro q hq m hm
  rw [List.length_append, List.length_singleton] at hq
  by_cases hql : q < l.length
  · rw [List.getElem_append_left hql] at hm
    rw [List.take_append_of_le_length (le_of_lt hql)]
    exact h1 q hql m hm
  · have hq1 : q = l.length := by omega
    subst hq1
    rw [List.getElem_concat_length] at hm
    rw [List.take_append_of_le_length le_rfl, List.take_length]
    exact h2 m hm
    rfl

theorem giWalk_order (g : TermGraph) :
    ∀ (i : Nat) (acc : List Nat × List Nat),
      TopoOrdered g acc.1 → ReachClosed g acc.1 →
      (∀ x ∈ acc.2, x ∈ acc.1 ∨ i ≤ x) →
      TopoOrdered g (giWalk g i acc).1 ∧ ReachClosed g (giWalk g i acc).1 := by
  apply giWalk.induct g
    (fun i acc =>
      TopoOrdered g acc.1 → ReachClosed g acc.1 →
      (∀ x ∈ acc.2, x ∈ acc.1 ∨ i ≤ x) →
      TopoOrdered g (giWalk g i acc).1 ∧ ReachClosed g (giWalk g i acc).1)
    (fun l b hb acc =>
      TopoOrdered g acc.1 → ReachClosed g acc.1 →
      (∀ x ∈ acc.2, x ∈ acc.1 ∨ ∀ a ∈ l, a ≤ x) →
      TopoOrdered g (giWalkList g l b hb acc).1 ∧
        ReachClosed g (giWalkList g l b hb acc).1)
  · -- early return
    intro i acc h ht hc _
    rw [giWalk, if_pos h]
    exact ⟨ht, hc⟩
  · -- the node is visited
    intro i acc h ih ht hc hhi
    push_neg at h
    obtain ⟨hseen, hinstr⟩ := h
    obtain ⟨Δ2, s1, s2, s3, s4, s5⟩ :=
      giWalkList_spec g (g.argsOf i) i (fun x hx => mem_argsOf_lt g hx)
        (acc.1, i :: acc.2)
    have hbound : ∀ x ∈ (acc.1, i :: acc.2).2,
        x ∈ (acc.1, i :: acc.2).1 ∨ ∀ a ∈ g.argsOf i, a ≤ x := by
      intro x hx
      rcases List.mem_cons.mp hx with rfl | hx
      · exact Or.inr (fun a ha => le_of_lt (mem_argsOf_lt g ha))
      · rcases hhi x hx with hin | hle
        · exact Or.inl hin
        · exact Or.inr (fun a ha => le_trans (le_of_lt (mem_argsOf_lt g ha)) hle)
    obtain ⟨ht2, hc2⟩ := ih ht hc hbound
    set r2 := giWalkList g (g.argsOf i) i (fun x hx => mem_argsOf_lt g hx)
      (acc.1, i :: acc.2) with hr2
    have hstep : giWalk g i acc = (r2.1 ++ [i], r2.2) := by
      rw [giWalk]
      simp [hseen, hinstr, hr2]
    have hkey : ∀ m, ArgReach g i m → m ∈ r2.1 := by
      rintro m ⟨a, ha, hrm⟩
      rcases preach_block (· ∈ r2.2) hrm with hl | ⟨x, hx, hax, hxm⟩
      · have hmem : m ∈ Δ2 := (s5 m).mpr
          ⟨a, ha, preach_mono (fun y hy => (s2 y).mpr (Or.inl hy)) hl⟩
        exact absurd ((s2 m).mpr (Or.inr hmem)) (preach_tgt hl).2
      · have hxa : x ≤ a := preach_le hax
        have halt : a < i := mem_argsOf_lt g ha
        rcases (s2 x).mp hx with hx2 | hx2
        · rcases List.mem_cons.mp hx2 with rfl | hx3
          · omega
          · rcases hhi x hx3 with hin | hbound2
            · rw [s1]
              exact List.mem_append.mpr (Or.inl (hc x hin m hxm))
            · omega
        · have : x ∈ r2.1 := by
            rw [s1]
            exact List.mem_append.mpr (Or.inr hx2)
          exact hc2 x this m hxm
    rw [hstep]
    constructor
    · exact topoOrdered_append g r2.1 i ht2 hkey
    · intro x hx m hrm
      rcases List.mem_append.mp hx with hx | hx
      · exact List.mem_append.mpr (Or.inl (hc2 x hx m hrm))
      · rw [List.mem_singleton] at hx
        subst hx
        cases hrm with
        | refl => exact List.mem_append.mpr (Or.inr (List.mem_singleton.mpr rfl))
        | step _ j _ _ _ hj hrj =>
          exact List.mem_append.mpr (Or.inl (hkey m ⟨j, hj, hrj⟩))
  · -- empty operand list
    intro b acc hb _ ht hc _
    rw [giWalkList]
    exact ⟨ht, hc⟩
  · -- one operand, then the rest
    intro b acc a rest hb hab _ ih1 ih2 ht hc hhi
    rw [giWalkList]
    obtain ⟨Δ1, s1, s2, s3, s4, s5⟩ := giWalk_spec g a acc
    obtain ⟨htm, hcm⟩ := ih1 ht hc (fun x hx => by
      rcases hhi x hx with hin | hall
      · exact Or.inl hin
      · exact Or.inr (hall a (List.mem_cons_self a rest)))
    refine ih2 htm hcm ?_
    intro x hx
    rcases (s2 x).mp hx with hx2 | hx2
    · rcases hhi x hx2 with hin | hall
      · refine Or.inl ?_
        rw [s1]
        exact List.mem_append.mpr (Or.inl hin)
      · exact Or.inr (fun c hcmem => hall c (List.mem_cons_of_mem a hcmem))
    · refine Or.inl ?_
      rw [s1]
      exact List.mem_append.mpr (Or.inr hx2)

/-- C5 (amended): `get_insts(root)` returns exactly the Instruction nodes
reachable from root along paths consisting entirely of Instructions (the
walk does not descend through non-Instruction nodes), each exactly once, in
an order where every listed instruction appears after all instructions
instruction-reachable from its operands, and returns no non-Instruction
node. -/
theorem claim_C5 (g : TermGraph) (root : Nat) :
    (∀ x, x ∈ getInsts g root ↔
      PReach g (okInstr g) (fun _ => False) root x) ∧
    (getInsts g root).Nodup ∧
    (∀ x ∈ getInsts g root, (g.kindAt x).isInstruction = true) ∧
    TopoOrdered g (getInsts g root) := by
  obtain ⟨Δ, s1, s2, s3, s4, s5⟩ := giWalk_spec g root ([], [])
  have hlist : getInsts g root = Δ := by
    rw [getInsts, s1]
    simp
  have hmem : ∀ x, x ∈ getInsts g root ↔
      PReach g (okInstr g) (fun _ => False) root x := by
    intro x
    rw [hlist, s5 x]
    exact preach_congr (fun y => by simp)
  refine ⟨hmem, by rw [hlist]; exact s3, ?_, ?_⟩
  · intro x hx
    exact (preach_tgt ((hmem x).mp hx)).1
  · have := giWalk_order g root ([], [])
      (by intro q hq m _; simp at hq)
      (by intro x hx; simp at hx)
      (by intro x hx; simp at hx)
    exact this.1

/-- Concrete graph for C5: an input, an instruction on it, a predicate term
mentioning the instruction, and a root instruction whose operands are the
predicate term and the input.  The inner instruction (index 1) is reachable
from the root only through the non-Instruction node 2. -/
def gC5 : TermGraph := ⟨[⟨.input "x", []⟩, ⟨.instr "a" "add" [], [0, 0]⟩,
  ⟨.funPred "p", [1]⟩, ⟨.instr "r" "add" [], [2, 0]⟩], by decide⟩

/-- C5 as stated is false: instruction 1 is reachable from root 3 in the
term graph, but `get_insts` returns only the root, because the walk stops
at the non-Instruction operand 2. -/
theorem claim_C5_counterexample :
    (gC5.kindAt 1).isInstruction = true ∧
    PReach gC5 (fun _ => True) (fun _ => False) 3 1 ∧
    getInsts gC5 3 = [3] ∧ 1 ∉ getInsts gC5 3 := by
  have hreach : PReach gC5 (fun _ => True) (fun _ => False) 3 1 :=
    .step 3 2 1 trivial not_false (by decide)
      (.step 2 1 1 trivial not_false (by decide)
        (.refl 1 trivial not_false))
  obtain ⟨Δ, s1, s2, s3, s4, s5⟩ := giWalk_spec gC5 3 ([], [])
  have hlist : getInsts gC5 3 = Δ := by
    rw [getInsts, s1]
    simp
  have hforward : ∀ x, PReach gC5 (okInstr gC5) (· ∈ ([] : List Nat)) 3 x →
      x = 3 := by
    intro x h
    cases h with
    | refl => rfl
    | step _ j _ _ _ hj hrj =>
      have hok := (preach_src hrj).1
      have hj2 : j ∈ ([2, 0] : List Nat) := hj
      have hok2 : (gC5.kindAt j).isInstruction = true := hok
      rcases List.mem_cons.mp hj2 with rfl | hj3
      · exact absurd hok2 (by decide)
      · rw [List.mem_singleton] at hj3
        subst hj3
        exact absurd hok2 (by decide)
  have h3in : 3 ∈ Δ := (s5 3).mpr
    (.refl 3 (show (gC5.kindAt 3).isInstruction = true by decide) (by simp))
  have hΔ : Δ = [3] := by
    have hiff : ∀ x, x ∈ Δ ↔ x = 3 := fun x =>
      ⟨fun hx => hforward x ((s5 x).mp hx), fun hx => hx ▸ h3in⟩
    rcases Δ with _ | ⟨a, t⟩
    · exact absurd ((hiff 3).mpr rfl) (List.not_mem_nil 3)
    · have ha : a = 3 := (hiff a).mp (.head _)
      subst ha
      rcases t with _ | ⟨b, t2⟩
      · rfl
      · have hb : b = 3 := (hiff b).mp (.tail _ (.head _))
        subst hb
        simp at s3
  have hrun : getInsts gC5 3 = [3] := by rw [hlist, hΔ]
  exact ⟨by decide, hreach, hrun, by rw [hrun]; decide⟩

/-! ## count_uses: per-edge reference counting with memoized expansion -/

/-- A use counter, as the Python `Counter`: present keys carry a count. -/
def Cnt := Nat → Option Nat

/-- `uses[t]` (0 for a missing key). -/
def cntVal (c : Cnt) (t : Nat) : Nat := (c t).getD 0

/-- `uses[a] += 1`. -/
def cntInc (c : Cnt) (a : Nat) : Cnt :=
  fun x => if x = a then some (cntVal c a + 1) else c x

theorem cntVal_inc (c : Cnt) (a t : Nat) :
    cntVal (cntInc c a) t = cntVal c t + (if t = a then 1 else 0) := by
  unfold cntInc
  by_cases h : t = a
  · subst h; simp [cntVal]
  · simp [cntVal, h]

theorem cntMem_inc (c : Cnt) (a t : Nat) :
    (cntInc c a t).isSome ↔ t = a ∨ (c t).isSome := by
  unfold cntInc
  by_cases h : t = a
  · subst h; simp
  · simp [h]

mutual

/-- The inner `walk` of `count_uses`: increments each operand once per
edge, expanding an operand only when it is not yet a counter key. -/
def cuWalk (g : TermGraph) (v : Nat) (uses : Cnt) : Cnt :=
  cuWalkArgs g (g.argsOf v) v (fun x hx => mem_argsOf_lt g hx) uses
termination_by (v, 1, 0)
decreasing_by
  simp_wf
  exact Prod.Lex.right v (Prod.Lex.left _ _ (by omega))

def cuWalkArgs (g : TermGraph) (l : List Nat) (b : Nat) (hb : ∀ x ∈ l, x < b)
    (uses : Cnt) : Cnt :=
  match l with
  | [] => uses
  | a :: rest =>
    have hlt : a < b := hb a (.head _)
    let uses1 := if (uses a).isSome then uses else cuWalk g a uses
    cuWalkArgs g rest b (fun x hx => hb x (.tail _ hx)) (cntInc uses1 a)
termination_by (b, 0, l.length)
decreasing_by
  all_goals simp_wf
  · exact Prod.Lex.left _ _ hlt
  · exact Prod.Lex.right b (Prod.Lex.right 0 (by omega))

end

/-- `count_uses` (with `uses=None` modelled as the empty counter). -/
def countUses (g : TermGraph) (dag : Nat) (uses : Cnt) : Cnt :=
  cuWalk g dag uses

/-- The empty counter (the `uses=None` default). -/
def cntEmpty : Cnt := fun _ => none

theorem preach_snoc {g ok avoid} {a p t : Nat}
    (h : PReach g ok avoid a p) (ht : t ∈ g.argsOf p) (hok : ok t)
    (hav : ¬ avoid t) : PReach g ok avoid a t := by
  refine preach_trans h (.step p t t ?_ ?_ ht (.refl t hok hav))
  · exact (preach_tgt h).1
  · exact (preach_tgt h).2

theorem preach_last_edge {g ok avoid} {a m : Nat}
    (h : PReach g ok avoid a m) :
    m = a ∨ ∃ p, PReach g ok avoid a p ∧ m ∈ g.argsOf p := by
  induction h with
  | refl => exact Or.inl rfl
  | step i j k hok hav hj hr ih =>
    rcases ih with rfl | ⟨p, hp, hmp⟩
    · exact Or.inr ⟨i, .refl i hok hav, hj⟩
    · exact Or.inr ⟨p, .step i j p hok hav hj hp, hmp⟩

/-- For an unblocked node, reachability unfolds through the operands. -/
theorem preach_unfold {g ok avoid} {a m : Nat} (hok : ok a) (hav : ¬ avoid a) :
    PReach g ok avoid a m ↔
      (m = a ∨ ∃ c ∈ g.argsOf a, PReach g ok avoid c m) := by
  constructor
  · intro h
    cases h with
    | refl => exact Or.inl rfl
    | step _ j _ _ _ hj hr => exact Or.inr ⟨j, hj, hr⟩
  · rintro (rfl | ⟨c, hc, hr⟩)
    · exact .refl m hok hav
    · exact .step a c m hok hav hc hr

/-- Key-set of a counter, as the avoided set for expansion. -/
def cntKeys (uses : Cnt) : Nat → Prop := fun x => (uses x).isSome = true

/-- Specification of the operand loop: an expansion block `E` of exactly
the nodes reachable from an unkeyed operand through unkeyed nodes, counts
incremented once per listed occurrence plus once per edge out of an
expanded node, keys grown by the listed operands and the expanded nodes'
operands. -/
def cuSpecL (g : TermGraph) (l : List Nat) (uses r : Cnt)
    (reach : Nat → Prop) : Prop :=
  ∃ E : List Nat, E.Nodup ∧ (∀ p, p ∈ E ↔ reach p) ∧
    (∀ t, cntVal r t =
      cntVal uses t + l.count t +
        (E.map (fun p => (g.argsOf p).count t)).sum) ∧
    (∀ t, (r t).isSome ↔ (uses t).isSome ∨ t ∈ l ∨ ∃ p ∈ E, t ∈ g.argsOf p)

/-- Specification of `count_uses` on one root. -/
def cuSpecN (g : TermGraph) (v : Nat) (uses r : Cnt) : Prop :=
  ∃ E : List Nat, E.Nodup ∧
    (∀ p, p ∈ E ↔ (p = v ∨ ∃ a ∈ g.argsOf v,
      PReach g (fun _ => True) (cntKeys uses) a p)) ∧
    (∀ t, cntVal r t =
      cntVal uses t + (E.map (fun p => (g.argsOf p).count t)).sum) ∧
    (∀ t, (r t).isSome ↔ (uses t).isSome ∨ ∃ p ∈ E, t ∈ g.argsOf p)

theorem cuWalk_spec (g : TermGraph) :
    ∀ (v : Nat) (uses : Cnt), cuSpecN g v uses (cuWalk g v uses) := by
  apply cuWalk.induct g
    (fun v uses => cuSpecN g v uses (cuWalk g v uses))
    (fun l b hb uses =>
      cuSpecL g l uses (cuWalkArgs g l b hb uses)
        (fun m => ∃ a ∈ l, PReach g (fun _ => True) (cntKeys uses) a m))
  · -- the node walk delegates to the operand loop
    intro v uses ih
    obtain ⟨E, e1, e2, e3, e4⟩ := ih
    have hvE : v ∉ E := by
      intro hv
      obtain ⟨a, ha, hra⟩ := (e2 v).mp hv
      have := preach_le hra
      have := mem_argsOf_lt g ha
      omega
    refine ⟨v :: E, List.nodup_cons.mpr ⟨hvE, e1⟩, ?_, ?_, ?_⟩
    · intro p
      rw [List.mem_cons, e2 p]
    · intro t
      rw [cuWalk, e3 t]
      simp only [List.map_cons, List.sum_cons]
      omega
    · intro t
      rw [cuWalk, e4 t]
      constructor
      · rintro (h | h | ⟨p, hp, hpt⟩)
        · exact Or.inl h
        · exact Or.inr ⟨v, List.mem_cons_self v E, h⟩
        · exact Or.inr ⟨p, List.mem_cons_of_mem v hp, hpt⟩
      · rintro (h | ⟨p, hp, hpt⟩)
        · exact Or.inl h
        · rcases List.mem_cons.mp hp with rfl | hp
          · exact Or.inr (Or.inl hpt)
          · exact Or.inr (Or.inr ⟨p, hp, hpt⟩)
  · -- empty operand list
    intro b uses hb _
    refine ⟨[], List.nodup_nil, by simp, ?_, ?_⟩
    · intro t
      rw [cuWalkArgs]
      simp
    · intro t
      rw [cuWalkArgs]
      simp
  · -- first operand, then the rest
    intro b uses a rest hb hab uses1 hall ih1 ih2
    obtain ⟨E2, m1, m2, m3, m4⟩ := ih2
    have hstep : cuWalkArgs g (a :: rest) b hb uses =
        cuWalkArgs g rest b (fun x hx => hb x (.tail _ hx)) (cntInc uses1 a) := by
      rw [cuWalkArgs]
      rfl
    by_cases hkey : (uses a).isSome = true
    · -- the operand is already a key: no expansion, only the increment
      have huses1 : uses1 = uses := by
        simp only [uses1, dif_pos hkey]
      rw [huses1] at hstep m2 m3 m4
      have hK2 : ∀ x, cntKeys (cntInc uses a) x ↔ cntKeys uses x := by
        intro x
        unfold cntKeys
        rw [cntMem_inc]
        constructor
        · rintro (rfl | h)
          · exact hkey
          · exact h
        · exact Or.inr
      refine ⟨E2, m1, ?_, ?_, ?_⟩
      · intro p
        rw [m2 p]
        constructor
        · rintro ⟨c, hc, hrc⟩
          exact ⟨c, List.mem_cons_of_mem a hc, (preach_congr hK2).mp hrc⟩
        · rintro ⟨c, hc, hrc⟩
          rcases List.mem_cons.mp hc with rfl | hc
          · exact absurd hkey (preach_src hrc).2
          · exact ⟨c, hc, (preach_congr hK2).mpr hrc⟩
      · intro t
        rw [hstep, m3 t, cntVal_inc]
        by_cases ht : t = a
        · subst ht
          simp [List.count_cons] <;> omega
        · simp [List.count_cons, ht, Ne.symm ht] <;> omega
      · intro t
        rw [hstep, m4 t, cntMem_inc]
        constructor
        · rintro ((rfl | h) | h | h)
          · exact Or.inr (Or.inl (List.mem_cons_self t rest))
          · exact Or.inl h
          · exact Or.inr (Or.inl (List.mem_cons_of_mem a h))
          · exact Or.inr (Or.inr h)
        · rintro (h | h | h)
          · exact Or.inl (Or.inr h)
          · rcases List.mem_cons.mp h with rfl | h
            · exact Or.inl (Or.inl rfl)
            · exact Or.inr (Or.inl h)
          · exact Or.inr (Or.inr h)
    · -- the operand is unkeyed: expand it, then increment
      have huses1 : uses1 = cuWalk g a uses := by
        simp only [uses1, dif_neg hkey]
      rw [huses1] at hstep m2 m3 m4
      obtain ⟨E1, n1, n2, n3, n4⟩ := ih1
      have hE1Ra : ∀ p, p ∈ E1 ↔
          PReach g (fun _ => True) (cntKeys uses) a p := by
        intro p
        rw [n2 p]
        exact (preach_unfold trivial hkey).symm
      have hK2 : ∀ x, cntKeys (cntInc (cuWalk g a uses) a) x ↔
          (cntKeys uses x ∨ PReach g (fun _ => True) (cntKeys uses) a x) := by
        intro x
        unfold cntKeys
        rw [cntMem_inc, n4 x]
        constructor
        · rintro (rfl | h | ⟨p, hp, hpx⟩)
          · exact Or.inr (.refl x trivial hkey)
          · exact Or.inl h
          · by_cases hx : (uses x).isSome = true
            · exact Or.inl hx
            · exact Or.inr (preach_snoc ((hE1Ra p).mp hp) hpx trivial hx)
        · rintro (h | h)
          · exact Or.inr (Or.inl h)
          · rcases preach_last_edge h with rfl | ⟨p, hp, hxp⟩
            · exact Or.inl rfl
            · exact Or.inr (Or.inr ⟨p, (hE1Ra p).mpr hp, hxp⟩)
      have hdisj : ∀ x ∈ E2, x ∉ E1 := by
        intro x hx hx1
        obtain ⟨c, hc, hrc⟩ := (m2 x).mp hx
        have := (preach_tgt hrc).2
        exact this ((hK2 x).mpr (Or.inr ((hE1Ra x).mp hx1)))
      refine ⟨E1 ++ E2, ?_, ?_, ?_, ?_⟩
      · rw [List.nodup_append]
        exact ⟨n1, m1, fun x hx hx2 => hdisj x hx2 hx⟩
      · intro p
        rw [List.mem_append, hE1Ra p, m2 p]
        constructor
        · rintro (h | ⟨c, hc, hrc⟩)
          · exact ⟨a, List.mem_cons_self a rest, h⟩
          · refine ⟨c, List.mem_cons_of_mem a hc, ?_⟩
            exact preach_mono (fun y hy => (hK2 y).mpr (Or.inl hy)) hrc
        · rintro ⟨c, hc, hrc⟩
          rcases List.mem_cons.mp hc with rfl | hc
          · exact Or.inl hrc
          · rcases preach_reroute (a := a) hrc with hre | hre
            · refine Or.inr ⟨c, hc, (preach_congr (fun y => ?_)).mp hre⟩
              rw [hK2 y]
            · exact Or.inl hre
      · intro t
        rw [hstep, m3 t, cntVal_inc, n3 t]
        simp only [List.map_append, List.sum_append]
        by_cases ht : t = a
        · subst ht
          simp [List.count_cons] <;> omega
        · simp [List.count_cons, ht, Ne.symm ht] <;> omega
      · intro t
        rw [hstep, m4 t, cntMem_inc, n4 t]
        constructor
        · rintro ((rfl | h | h) | h | h)
          · exact Or.inr (Or.inl (List.mem_cons_self t rest))
          · exact Or.inl h
          · obtain ⟨p, hp, hpt⟩ := h
            exact Or.inr (Or.inr ⟨p, List.mem_append.mpr (Or.inl hp), hpt⟩)
          · exact Or.inr (Or.inl (List.mem_cons_of_mem a h))
          · obtain ⟨p, hp, hpt⟩ := h
            exact Or.inr (Or.inr ⟨p, List.mem_append.mpr (Or.inr hp), hpt⟩)
        · rintro (h | h | h)
          · exact Or.inl (Or.inr (Or.inl h))
          · rcases List.mem_cons.mp h with rfl | h
            · exact Or.inl (Or.inl rfl)
            · exact Or.inr (Or.inl h)
          · obtain ⟨p, hp, hpt⟩ := h
            rcases List.mem_append.mp hp with hp | hp
            · exact Or.inl (Or.inr (Or.inr ⟨p, hp, hpt⟩))
            · exact Or.inr (Or.inr ⟨p, hp, hpt⟩)

/-- C7: `count_uses(root, counter)` expands each term at most once (the
expansion block `E` has no duplicates and a term is expanded only when it is
not a key of the shared counter, i.e. reachable through unkeyed terms), and
increments each term's counter once per incoming edge out of an expanded
parent — including edges from parents already expanded — leaving keys grown
by exactly the operands of expanded parents. -/
theorem claim_C7 (g : TermGraph) (root : Nat) (uses : Cnt) :
    ∃ E : List Nat, E.Nodup ∧
      (∀ p, p ∈ E ↔ (p = root ∨ ∃ a ∈ g.argsOf root,
        PReach g (fun _ => True) (cntKeys uses) a p)) ∧
      (∀ t, cntVal (countUses g root uses) t =
        cntVal uses t + (E.map (fun p => (g.argsOf p).count t)).sum) ∧
      (∀ t, ((countUses g root uses) t).isSome ↔
        (uses t).isSome ∨ ∃ p ∈ E, t ∈ g.argsOf p) :=
  cuWalk_spec g root uses

/-! ## subterms and constant_defs -/

mutual

/-- Modelled from the spec: `L.subterms(root, seen)` of module `language`
(not under src/): a post-order enumeration of every distinct term reachable
from root, children before parents, each yielded exactly once per provided
seen set. -/
def subW (g : TermGraph) (i : Nat) (seen : List Nat) : List Nat × List Nat :=
  if i ∈ seen then ([], seen)
  else
    let r := subWList g (g.argsOf i) i (fun x hx => mem_argsOf_lt g hx)
      (i :: seen)
    (r.1 ++ [i], r.2)
termination_by (i, 1, 0)
decreasing_by
  simp_wf
  exact Prod.Lex.right i (Prod.Lex.left _ _ (by omega))

def subWList (g : TermGraph) (l : List Nat) (b : Nat) (hb : ∀ x ∈ l, x < b)
    (seen : List Nat) : List Nat × List Nat :=
  match l with
  | [] => ([], seen)
  | a :: rest =>
    have hlt : a < b := hb a (.head _)
    let r1 := subW g a seen
    let r2 := subWList g rest b (fun x hx => hb x (.tail _ hx)) r1.2
    (r1.1 ++ r2.1, r2.2)
termination_by (b, 0, l.length)
decreasing_by
  all_goals simp_wf
  · exact Prod.Lex.left _ _ hlt
  · exact Prod.Lex.right b (Prod.Lex.right 0 (by omega))

end

/-- The subterm walk of one root with a fresh seen set. -/
def subtermsList (g : TermGraph) (root : Nat) : List Nat :=
  (subW g root []).1

/-- The yields are fresh, unrepeated, and the seen set grows by them. -/
theorem subW_nodup (g : TermGraph) :
    ∀ (i : Nat) (seen : List Nat),
      (subW g i seen).1.Nodup ∧ (∀ x ∈ (subW g i seen).1, x ∉ seen) ∧
      (∀ x, x ∈ (subW g i seen).2 ↔ x ∈ seen ∨ x ∈ (subW g i seen).1) := by
  apply subW.induct g
    (fun i seen =>
      (subW g i seen).1.Nodup ∧ (∀ x ∈ (subW g i seen).1, x ∉ seen) ∧
      (∀ x, x ∈ (subW g i seen).2 ↔ x ∈ seen ∨ x ∈ (subW g i seen).1))
    (fun l b hb seen =>
      (subWList g l b hb seen).1.Nodup ∧
      (∀ x ∈ (subWList g l b hb seen).1, x ∉ seen) ∧
      (∀ x, x ∈ (subWList g l b hb seen).2 ↔
        x ∈ seen ∨ x ∈ (subWList g l b hb seen).1))
  · intro i seen h
    rw [subW, if_pos h]
    refine ⟨List.nodup_nil, by simp, by simp⟩
  · intro i seen h ih
    obtain ⟨ih1, ih2, ih3⟩ := ih
    have hstep : subW g i seen =
        ((subWList g (g.argsOf i) i (fun x hx => mem_argsOf_lt g hx)
          (i :: seen)).1 ++ [i],
         (subWList g (g.argsOf i) i (fun x hx => mem_argsOf_lt g hx)
          (i :: seen)).2) := by
      rw [subW, if_neg h]
    rw [hstep]
    refine ⟨?_, ?_, ?_⟩
    · rw [List.nodup_append]
      refine ⟨ih1, List.nodup_singleton i, ?_⟩
      intro x hx
      have := ih2 x hx
      simp only [List.mem_singleton]
      intro hc
      exact this (by rw [hc]; exact List.mem_cons_self i seen)
    · intro x hx
      rcases List.mem_append.mp hx with hx | hx
      · exact fun hc => ih2 x hx (List.mem_cons_of_mem i hc)
      · rw [List.mem_singleton] at hx
        subst hx
        exact h
    · intro x
      rw [ih3 x]
      simp only [List.mem_cons, List.mem_append, List.mem_singleton]
      tauto
  · intro b seen hb _
    rw [subWList]
    exact ⟨List.nodup_nil, by simp, by simp⟩
  · intro b seen a rest hb hab r1 hall ih1 ih2
    obtain ⟨p1, p2, p3⟩ := ih1
    obtain ⟨q1, q2, q3⟩ := ih2
    have hstep : subWList g (a :: rest) b hb seen =
        ((subW g a seen).1 ++
          (subWList g rest b (fun x hx => hb x (.tail _ hx)) (subW g a seen).2).1,
         (subWList g rest b (fun x hx => hb x (.tail _ hx)) (subW g a seen).2).2) := by
      rw [subWList]
    rw [hstep]
    refine ⟨?_, ?_, ?_⟩
    · rw [List.nodup_append]
      refine ⟨p1, q1, ?_⟩
      intro x hx hx2
      exact q2 x hx2 ((p3 x).mpr (Or.inr hx))
    · intro x hx
      rcases List.mem_append.mp hx with hx | hx
      · exact p2 x hx
      · intro hc
        exact q2 x hx ((p3 x).mpr (Or.inl hc))
    · intro x
      rw [q3 x, p3 x, List.mem_append]
      tauto

/-- `constant_defs(tgt, terms)`: count uses over tgt and the extra roots
into one shared counter, then yield the shared non-symbolic constants in
subterm order. -/
def constantDefs (g : TermGraph) (tgt : Nat) (terms : List Nat) : List Nat :=
  let uses := terms.foldl (fun u t => countUses g t u) (countUses g tgt cntEmpty)
  (subtermsList g tgt).filter
    (fun t => 1 < cntVal uses t && (g.kindAt t).isConstant &&
      !(g.kindAt t).isSymbol)

/-- C4: `constant_defs(tgt, terms)` yields exactly the distinct terms of
tgt's subterm walk, in walk order, whose combined use count over tgt and
all extra roots (accumulated into one shared counter) is strictly greater
than 1 and which are Constants but not Symbols; each such term is yielded
exactly once. -/
theorem claim_C4 (g : TermGraph) (tgt : Nat) (terms : List Nat) :
    (constantDefs g tgt terms).Nodup ∧
    (∀ t, t ∈ constantDefs g tgt terms ↔
      (t ∈ subtermsList g tgt ∧
        1 < cntVal (terms.foldl (fun u t => countUses g t u)
          (countUses g tgt cntEmpty)) t ∧
        (g.kindAt t).isConstant = true ∧ (g.kindAt t).isSymbol = false)) ∧
    constantDefs g tgt terms =
      (subtermsList g tgt).filter
        (fun t => 1 < cntVal (terms.foldl (fun u t => countUses g t u)
            (countUses g tgt cntEmpty)) t ∧
          (g.kindAt t).isConstant = true ∧ (g.kindAt t).isSymbol = false) := by
  have hfilter : constantDefs g tgt terms =
      (subtermsList g tgt).filter
        (fun t => 1 < cntVal (terms.foldl (fun u t => countUses g t u)
            (countUses g tgt cntEmpty)) t ∧
          (g.kindAt t).isConstant = true ∧ (g.kindAt t).isSymbol = false) := by
    unfold constantDefs
    refine List.filter_congr ?_
    intro x _
    cases hc : (g.kindAt x).isConstant <;> cases hs : (g.kindAt x).isSymbol <;>
      by_cases h1 : 1 < cntVal (terms.foldl (fun u t => countUses g t u)
        (countUses g tgt cntEmpty)) x <;>
      simp [hc, hs, h1]
  refine ⟨?_, ?_, hfilter⟩
  · rw [hfilter]
    exact List.Nodup.filter _ (subW_nodup g tgt []).1
  · intro t
    rw [hfilter, List.mem_filter]
    simp

/-! ## The line-continuation renderer (text_events_line_continue) -/

inductive LCEvent where
  | text (s : String)
  | line (hp : Int) (ind : Int)
  | brk (hp : Int) (ind : Int)
  | gbegin (hp : Option Int)
  | gend
deriving DecidableEq

structure LCState where
  fits : Nat
  broken : Int
  hpEol : Int
deriving DecidableEq

structure LCParams where
  width : Int
  pfx : String
  sfx : String
  startAt : Int
deriving DecidableEq

/-- The width after `width -= len(prefix)`. -/
def lcW (p : LCParams) : Int := p.width - p.pfx.length

/-- Initial state: `fits = 0; broken = 0; hp_eol = width - start_at`. -/
def lcInit (p : LCParams) : LCState := ⟨0, 0, lcW p - p.startAt⟩

def lcSpaces (ind : Int) : String := ⟨List.replicate ind.toNat ' '⟩

/-- The newline branch: recompute `hp_eol`, emit the continuation marker
when a broken group is open, then the newline, the prefix and the indent. -/
def lcNewline (p : LCParams) (s : LCState) (hp ind : Int) : LCState × String :=
  let hp1 := hp + lcW p - ind
  if s.broken ≠ 0 then
    ({ s with hpEol := hp1 - p.sfx.length },
     p.sfx ++ "\n" ++ p.pfx ++ lcSpaces ind)
  else
    ({ s with hpEol := hp1 }, "\n" ++ p.pfx ++ lcSpaces ind)

/-- One event of `text_events_line_continue`, returning the next state and
the text written to the sink. -/
def lcStep (p : LCParams) (s : LCState) (e : LCEvent) : LCState × String :=
  match e with
  | .text str => (s, str)
  | .line hp ind =>
    if s.fits ≠ 0 then (s, " ") else lcNewline p s hp ind
  | .brk hp ind =>
    if s.fits = 0 then lcNewline p s hp ind else (s, "")
  | .gbegin hp =>
    if s.fits ≠ 0 then ({ s with fits := s.fits + 1 }, "")
    else
      match hp with
      | some v =>
        if v ≤ s.hpEol then ({ s with fits := 1 }, "")
        else if s.broken ≠ 0 then ({ s with broken := s.broken + 1 }, "")
        else ({ s with broken := 1, hpEol := s.hpEol - p.sfx.length }, "")
      | none =>
        if s.broken ≠ 0 then ({ s with broken := s.broken + 1 }, "")
        else ({ s with broken := 1, hpEol := s.hpEol - p.sfx.length }, "")
  | .gend =>
    if s.fits ≠ 0 then ({ s with fits := s.fits - 1 }, "")
    else ({ s with broken := s.broken - 1 }, "")

/-- The run of the renderer: each consumed event with the state it was
consumed in and the text it wrote. -/
def lcTrace (p : LCParams) : LCState → List LCEvent → List (LCState × LCEvent × String)
  | _, [] => []
  | s, e :: es => (s, e, (lcStep p s e).2) :: lcTrace p (lcStep p s e).1 es

/-- The per-step output discipline of the renderer. -/
def lcStepOK (p : LCParams) (s : LCState) (e : LCEvent) (out : String) : Prop :=
  (∀ hp ind, (e = .line hp ind ∨ e = .brk hp ind) → s.fits = 0 →
    out = (if s.broken ≠ 0 then p.sfx else "") ++ "\n" ++ p.pfx ++ lcSpaces ind) ∧
  (∀ hp ind, e = .line hp ind → s.fits ≠ 0 → out = " ") ∧
  (∀ hp ind, e = .brk hp ind → s.fits ≠ 0 → out = "") ∧
  (∀ hp, e = .gbegin hp → out = "") ∧
  (e = .gend → out = "") ∧
  (∀ str, e = .text str → out = str)

theorem lcStep_ok (p : LCParams) (s : LCState) (e : LCEvent) :
    lcStepOK p s e (lcStep p s e).2 := by
  refine ⟨?_, ?_, ?_, ?_, ?_, ?_⟩
  · rintro hp ind (rfl | rfl) hf
    · rw [lcStep]
      simp only [hf, ne_eq, not_true_eq_false, if_false, ite_false]
      rw [lcNewline]
      by_cases hb : s.broken ≠ 0
      · rw [if_pos hb, if_pos hb]
      · rw [if_neg hb, if_neg hb]
        simp
    · rw [lcStep]
      simp only [hf, if_true]
      rw [lcNewline]
      by_cases hb : s.broken ≠ 0
      · rw [if_pos hb, if_pos hb]
      · rw [if_neg hb, if_neg hb]
        simp
  · rintro hp ind rfl hf
    rw [lcStep]
    simp [hf]
  · rintro hp ind rfl hf
    rw [lcStep]
    simp [hf]
  · rintro hp rfl
    cases hp with
    | none =>
      rw [lcStep]
      by_cases hf : s.fits ≠ 0
      · simp [hf]
      · by_cases hb : s.broken ≠ 0 <;> simp [hb, hf]
    | some v =>
      rw [lcStep]
      by_cases hf : s.fits ≠ 0
      · simp [hf]
      · by_cases hv : v ≤ s.hpEol <;> by_cases hb : s.broken ≠ 0 <;>
          simp [hv, hb, hf]
  · rintro rfl
    rw [lcStep]
    by_cases hf : s.fits ≠ 0 <;> simp [hf]
  · rintro str rfl
    rfl

/-- C8 (amended): in every run of the line-continuation renderer, a newline
emitted while at least one broken group is open is immediately preceded by
the continuation marker, the caller-supplied prefix follows every emitted
newline, a newline emitted while no broken group is open carries no marker,
and no other event emits anything beyond caller text or a fitting space; in
particular the marker is tied to an open broken group, not to a break
having occurred earlier in the run. -/
theorem claim_C8 (p : LCParams) (s0 : LCState) (events : List LCEvent) :
    ∀ t ∈ lcTrace p s0 events, lcStepOK p t.1 t.2.1 t.2.2 := by
  induction events generalizing s0 with
  | nil => intro t ht; simp [lcTrace] at ht
  | cons e es ih =>
    intro t ht
    rw [lcTrace] at ht
    rcases List.mem_cons.mp ht with rfl | ht
    · exact lcStep_ok p s0 e
    · exact ih ((lcStep p s0 e).1) t ht

/-- The literal reading of the claim: once any break has occurred, every
newline emitted afterwards is immediately preceded by the marker. -/
def lcLiteralOK (p : LCParams) (s0 : LCState) (events : List LCEvent) : Bool :=
  ((lcTrace p s0 events).foldl
    (fun (st : Bool × Bool) t =>
      let isNl : Bool :=
        match t.2.1 with
        | .line _ _ => decide (t.1.fits = 0)
        | .brk _ _ => decide (t.1.fits = 0)
        | _ => false
      if isNl then (true, st.2 && (!st.1 || p.sfx.isPrefixOf t.2.2))
      else st)
    (false, true)).2

def lcP0 : LCParams := ⟨10, "", " \\", 0⟩

def lcEvents0 : List LCEvent := [.gbegin none, .brk 0 0, .gend, .line 0 0]

/-- C8 as stated is false: after a broken group has opened, broken, and
closed, a later hard line is emitted as a bare newline with no continuation
marker, even though a break has already occurred: the marker is tied to an
open broken group, not to the run's history. -/
theorem claim_C8_counterexample :
    (lcTrace lcP0 (lcInit lcP0) lcEvents0).map (fun t => t.2.2) =
      ["", " \\\n", "", "\n"] ∧
    lcLiteralOK lcP0 (lcInit lcP0) lcEvents0 = false := by
  refine ⟨?_, ?_⟩ <;> rfl

def lcS0 : LCState := ⟨0, 1, 5⟩

/-! ## The type constraint engine (module typing; modelled from the spec)

Modelled from the spec: the `typing` module is a collaborator outside this
repository.  Its collector is a union-find over term type variables with a
per-representative constraint (unconstrained, the boolean marker, "some
integer width", or a pinned concrete width); `specifics` marks the
representatives pinned to a concrete type; `eq_types` merges two classes,
failing on inconsistent constraints; `default` pins a defaultable
representative to the default width.  The union-find is kept eagerly
compressed, with the smaller index as canonical representative. -/

inductive TyConstraint where
  | unconstrained
  | boolT
  | intT
  | fixedInt (w : Nat)
deriving DecidableEq

/-- Modelled from the spec: merging the constraints of two unified classes;
`none` is an inconsistency (a `typing.Error`). -/
def mergeC : TyConstraint → TyConstraint → Option TyConstraint
  | .unconstrained, c => some c
  | .boolT, .unconstrained => some .boolT
  | .boolT, .boolT => some .boolT
  | .boolT, .intT => none
  | .boolT, .fixedInt _ => none
  | .intT, .unconstrained => some .intT
  | .intT, .boolT => none
  | .intT, .intT => some .intT
  | .intT, .fixedInt w => some (.fixedInt w)
  | .fixedInt w, .unconstrained => some (.fixedInt w)
  | .fixedInt _, .boolT => none
  | .fixedInt w, .intT => some (.fixedInt w)
  | .fixedInt w, .fixedInt v => if w = v then some (.fixedInt w) else none

structure TC where
  n : Nat
  rep : List Nat
  constr : List TyConstraint
deriving DecidableEq

/-- `t.sets.rep(i)`. -/
def TC.repOf (t : TC) (i : Nat) : Nat := t.rep.getD i i

/-- `t.constraints[r]`. -/
def TC.constrOf (t : TC) (i : Nat) : TyConstraint :=
  t.constr.getD i .unconstrained

def TC.init (n : Nat) : TC :=
  ⟨n, List.range n, List.replicate n .unconstrained⟩

/-- Modelled from the spec: `r in t.specifics` — the representative is
pinned to a concrete type. -/
def TC.isSpecific (t : TC) (r : Nat) : Bool :=
  match t.constrOf r with
  | .fixedInt _ => true
  | _ => false

/-- Record a constraint on a term's class. -/
def TC.setConstr (t : TC) (i : Nat) (c : TyConstraint) : Except String TC :=
  let r := t.repOf i
  match mergeC (t.constrOf r) c with
  | none => .error "inconsistent type constraints"
  | some m => .ok { t with constr := t.constr.set r m }

/-- `t.eq_types(a, b)`: unify the classes of the two terms. -/
def TC.eqTypes (t : TC) (a b : Nat) : Except String TC :=
  let ra := t.repOf a
  let rb := t.repOf b
  if ra = rb then .ok t
  else
    match mergeC (t.constrOf ra) (t.constrOf rb) with
    | none => .error "inconsistent type constraints"
    | some m =>
      let rc := min ra rb
      .ok { t with
        rep := t.rep.map (fun y => if y = ra ∨ y = rb then rc else y),
        constr := t.constr.set rc m }

/-- `t.sets.reps()`, in canonical index order. -/
def TC.repsList (t : TC) : List Nat :=
  (List.range t.n).filter (fun i => t.repOf i = i)

/-- Modelled from the spec: `t.default(r)` pins the default width. -/
def TC.default (t : TC) (r : Nat) : TC :=
  { t with constr := t.constr.set r (.fixedInt 64) }

/-- The step-6 filter: `r not in t.specifics and t.constraints[r] != BOOL`. -/
def TC.freeRep (t : TC) (r : Nat) : Bool :=
  !(t.isSpecific r) && !(t.constrOf r == .boolT)

def tcEqList (t : TC) (x : Nat) : List Nat → Except String TC
  | [] => .ok t
  | a :: rest =>
    match t.eqTypes x a with
    | .error e => .error e
    | .ok t2 => tcEqList t2 x rest

/-- Modelled from the spec: `term.type_constraints(t)` — each term records
its own constraint(s): operand/result type equalities for instructions and
connectives, an integer-width constraint for constants, operand equality
plus the boolean marker for comparisons, the boolean marker for function
predicates, nothing for inputs. -/
def termTypeConstraints (g : TermGraph) (i : Nat) (t : TC) : Except String TC :=
  match g.kindAt i with
  | .input _ => .ok t
  | .instr _ _ _ => tcEqList t i (g.argsOf i)
  | .literal _ => t.setConstr i .intT
  | .symbol _ => t.setConstr i .intT
  | .cnxp _ =>
    match tcEqList t i (g.argsOf i) with
    | .error e => .error e
    | .ok t2 => t2.setConstr i .intT
  | .comparison _ =>
    match
      (match g.argsOf i with
       | [] => Except.ok t
       | a :: rest => tcEqList t a rest) with
    | .error e => .error e
    | .ok t2 => t2.setConstr i .boolT
  | .funPred _ => t.setConstr i .boolT

/-- Collect constraints from a walk's yields, in order. -/
def tcCollect (g : TermGraph) (l : List Nat) (t : TC) : Except String TC :=
  match l with
  | [] => .ok t
  | i :: rest =>
    match termTypeConstraints g i t with
    | .error e => .error e
    | .ok t2 => tcCollect g rest t2

/-- A transformation: source and target roots plus optional precondition. -/
structure Xform where
  src : Nat
  tgt : Nat
  pre : Option Nat
deriving DecidableEq

def isCmpOrPred : TermKind → Bool
  | .comparison _ => true
  | .funPred _ => true
  | _ => false

/-- The defaultable candidates: the immediate arguments of every Comparison
or FunPred yielded by the precondition walk, in walk order. -/
def defaultableOf (g : TermGraph) (l : List Nat) : List Nat :=
  l.foldl (fun acc i =>
    if isCmpOrPred (g.kindAt i) then acc ++ g.argsOf i else acc) []

structure TCRun where
  t : TC
  srcReps : List Nat
  defaultable : List Nat
deriving DecidableEq

/-- Steps 1–5 of `Transform.type_constraints`: walk src (recording
`src_reps`), walk pre (collecting the defaultable operands), walk tgt, all
through one shared seen set, then unify the src and tgt root types. -/
def tcGather (g : TermGraph) (x : Xform) : Except String TCRun :=
  let w1 := subW g x.src []
  match tcCollect g w1.1 (TC.init g.nodes.length) with
  | .error e => .error e
  | .ok t1 =>
    let w2 :=
      match x.pre with
      | none => (([] : List Nat), w1.2)
      | some p => subW g p w1.2
    match tcCollect g w2.1 t1 with
    | .error e => .error e
    | .ok t2 =>
      let w3 := subW g x.tgt w2.2
      match tcCollect g w3.1 t2 with
      | .error e => .error e
      | .ok t3 =>
        match t3.eqTypes x.src x.tgt with
        | .error e => .error e
        | .ok t4 => .ok ⟨t4, t1.repsList, defaultableOf g w2.1⟩

/-- Step 6: the newly introduced still-free representatives, computed from
an enumeration `e2` of the collector's representatives and an enumeration
`e1` of the recorded source representatives (both Python sets, so their
enumeration order is not fixed). -/
def tcFreeReps (t : TC) (e1 e2 : List Nat) : List Nat :=
  e1.foldl (fun acc r => acc.erase (t.repOf r)) (e2.filter (t.freeRep ·))

/-- One iteration of the step-7 defaulting loop. -/
def dfltStep (acc : TC × List Nat) (term : Nat) : TC × List Nat :=
  let r := acc.1.repOf term
  if r ∈ acc.2 then (acc.1.default r, acc.2.erase r) else acc

/-- Step 7: `if reps: for term in defaultable: ...`. -/
def defaultPass (t : TC) (dflt reps : List Nat) : TC × List Nat :=
  if reps.isEmpty then (t, reps) else dflt.foldl dfltStep (t, reps)

/-- `fmt.operand(term)` rendered flat for each offending term, threading
one fresh Formatter through the whole message. -/
def renderOperands (g : TermGraph) (l : List Nat) (fmt : Fmt) :
    List String × Fmt :=
  match l with
  | [] => ([], fmt)
  | i :: rest =>
    let d := operandD g i fmt 0 none
    let r := renderOperands g rest d.2
    (flatten d.1 :: r.1, r.2)

/-- `', '.join(...)`. -/
def joinComma : List String → String
  | [] => ""
  | [s] => s
  | s :: rest => s ++ ", " ++ joinComma rest

/-- Steps 6–9, given the gathered collector and the two set enumerations:
default what can be defaulted, raise Ambiguous Type on any leftover free
representative, otherwise return the populated collector. -/
def tcFinish (g : TermGraph) (run : TCRun) (e1 e2 : List Nat) :
    Except String TC :=
  let reps := tcFreeReps run.t e1 e2
  let p := defaultPass run.t run.defaultable reps
  if p.2.isEmpty then .ok p.1
  else .error ("Ambiguous type for " ++
    joinComma (renderOperands g p.2 Fmt.init).1)

/-- `Transform.type_constraints`, with the canonical set enumerations. -/
def typeConstraints (g : TermGraph) (x : Xform) : Except String TC :=
  match tcGather g x with
  | .error e => .error e
  | .ok run => tcFinish g run run.srcReps run.t.repsList

/-- The leftover free representatives after the defaulting step. -/
def tcLeftover (run : TCRun) : List Nat :=
  (defaultPass run.t run.defaultable
    (tcFreeReps run.t run.srcReps run.t.repsList)).2

/-- The collector state after the defaulting step. -/
def tcDefaulted (run : TCRun) : TC :=
  (defaultPass run.t run.defaultable
    (tcFreeReps run.t run.srcReps run.t.repsList)).1

theorem claim_C8_witness :
    ((lcS0, LCEvent.brk 0 2, (lcStep lcP0 lcS0 (.brk 0 2)).2) ∈
      lcTrace lcP0 lcS0 [.brk 0 2]) ∧
    (lcStep lcP0 lcS0 (.brk 0 2)).2 =
      (if lcS0.broken ≠ 0 then lcP0.sfx else "") ++ "\n" ++ lcP0.pfx ++
        lcSpaces 2 :=
  ⟨by rw [lcTrace]; exact List.mem_cons_self _ _,
   (claim_C8 lcP0 lcS0 [.brk 0 2] _
      (by rw [lcTrace]; exact List.mem_cons_self _ _)).1 0 2
      (Or.inr rfl) rfl⟩

/-! ## Type validation against a concrete vector (modelled from the spec) -/

/-- Modelled from the spec: a concrete type from a type vector. -/
inductive VType where
  | boolV
  | intW (w : Nat)
deriving DecidableEq

def vIsInt : VType → Bool
  | .intW _ => true
  | .boolV => false

/-- Modelled from the spec: the Validator's `eq_types` — the concrete types
assigned to the two terms must agree, a mismatch is a `typing.Error`. -/
def vEqTypes (vec : Nat → VType) (a b : Nat) : Except String Unit :=
  if vec a = vec b then .ok () else .error "type mismatch"

/-- Modelled from the spec: `term.type_constraints(V)` in validating mode —
each term re-checks its own constraint against the concrete vector. -/
def vCheckTerm (g : TermGraph) (vec : Nat → VType) (i : Nat) :
    Except String Unit :=
  match g.kindAt i with
  | .input _ => .ok ()
  | .instr _ _ _ =>
    if (g.argsOf i).all (fun a => decide (vec a = vec i)) then .ok ()
    else .error "type mismatch"
  | .literal _ => if vIsInt (vec i) then .ok () else .error "type mismatch"
  | .symbol _ => if vIsInt (vec i) then .ok () else .error "type mismatch"
  | .cnxp _ =>
    if (g.argsOf i).all (fun a => decide (vec a = vec i)) && vIsInt (vec i)
    then .ok () else .error "type mismatch"
  | .comparison _ =>
    if (match g.argsOf i with
        | [] => true
        | a :: rest => rest.all (fun b => decide (vec b = vec a))) &&
        decide (vec i = .boolV)
    then .ok () else .error "type mismatch"
  | .funPred _ =>
    if vec i = .boolV then .ok () else .error "type mismatch"

def vCheckList (g : TermGraph) (vec : Nat → VType) :
    List Nat → Except String Unit
  | [] => .ok ()
  | i :: rest =>
    match vCheckTerm g vec i with
    | .error e => .error e
    | .ok _ => vCheckList g vec rest

/-- `Transform.subterms`: src, tgt, then pre, through one shared seen set. -/
def xSubterms (g : TermGraph) (x : Xform) : List Nat :=
  let w1 := subW g x.src []
  let w2 := subW g x.tgt w1.2
  match x.pre with
  | none => w1.1 ++ w2.1
  | some p => w1.1 ++ w2.1 ++ (subW g p w2.2).1

/-- `Transform.validate_model`: re-run the src/tgt unification and every
subterm's constraint check against the vector; any `typing.Error` is caught
at this boundary and converted to `false`. -/
def validateModel (g : TermGraph) (x : Xform) (vec : Nat → VType) : Bool :=
  match vEqTypes vec x.src x.tgt with
  | .error _ => false
  | .ok _ =>
    match vCheckList g vec (xSubterms g x) with
    | .error _ => false
    | .ok _ => true

/-! ## C2: the Ambiguous Type raise -/

theorem joinComma_contains (l : List String) :
    ∀ k (hk : k < l.length), (l.get ⟨k, hk⟩).data <:+: (joinComma l).data := by
  induction l with
  | nil => intro k hk; simp at hk
  | cons s rest ih =>
    intro k hk
    cases rest with
    | nil =>
      have hk0 : k = 0 := by
        simp only [List.length_cons, List.length_nil] at hk
        omega
      subst hk0
      exact List.infix_refl _
    | cons b bs =>
      have hj : joinComma (s :: b :: bs) = s ++ ", " ++ joinComma (b :: bs) :=
        rfl
      cases k with
      | zero =>
        rw [hj, String.data_append, String.data_append]
        simp only [List.get]
        exact ((s.data.prefix_append _).trans
          (List.prefix_append _ _)).isInfix
      | succ k =>
        have hk2 : k < (b :: bs).length := by
          simpa using hk
        have := ih k hk2
        rw [hj, String.data_append]
        simp only [List.get]
        exact this.trans (List.suffix_append _ _).isInfix

theorem renderOperands_length (g : TermGraph) (l : List Nat) :
    ∀ fmt, (renderOperands g l fmt).1.length = l.length := by
  induction l with
  | nil => intro fmt; rfl
  | cons i rest ih =>
    intro fmt
    rw [renderOperands]
    simpa using ih _

/-- C2: assuming the constraint-collection walks succeed, if after the
defaulting step the list of newly introduced free representatives is
non-empty, `type_constraints` fails with exactly the message `Ambiguous
type for ` followed by the comma-joined operand renderings of the offending
terms — one rendering per offending term, each appearing verbatim inside
the message — and if that list is empty it returns the populated (and
defaulted) collector without failing. -/
theorem claim_C2 (g : TermGraph) (x : Xform) (run : TCRun)
    (h : tcGather g x = .ok run) :
    (tcLeftover run = [] → typeConstraints g x = .ok (tcDefaulted run)) ∧
    (tcLeftover run ≠ [] →
      typeConstraints g x = .error ("Ambiguous type for " ++
        joinComma (renderOperands g (tcLeftover run) Fmt.init).1) ∧
      (renderOperands g (tcLeftover run) Fmt.init).1.length =
        (tcLeftover run).length ∧
      ∀ k (hk : k < (renderOperands g (tcLeftover run) Fmt.init).1.length),
        ((renderOperands g (tcLeftover run) Fmt.init).1.get ⟨k, hk⟩).data <:+:
          ("Ambiguous type for " ++
            joinComma (renderOperands g (tcLeftover run) Fmt.init).1).data) := by
  have htc : typeConstraints g x =
      (if (tcLeftover run).isEmpty then Except.ok (tcDefaulted run)
       else Except.error ("Ambiguous type for " ++
         joinComma (renderOperands g (tcLeftover run) Fmt.init).1)) := by
    unfold typeConstraints
    rw [h]
    rfl
  constructor
  · intro hL
    rw [htc, if_pos (by simp [hL])]
  · intro hL
    refine ⟨?_, renderOperands_length g _ _, ?_⟩
    · rw [htc, if_neg (by simp [hL])]
    · intro k hk
      rw [String.data_append]
      exact (joinComma_contains _ k hk).trans (List.suffix_append _ _).isInfix

def gT : TermGraph := ⟨[⟨.input "x", []⟩], by decide⟩

def xT : Xform := ⟨0, 0, none⟩

def runT : TCRun := ⟨TC.init 1, [0], []⟩

theorem subWList_congr (g : TermGraph) (b : Nat) {l l' : List Nat}
    (h : l = l') (hb : ∀ x ∈ l, x < b) (seen : List Nat) :
    subWList g l b hb seen =
      subWList g l' b (fun x hx => hb x (h ▸ hx)) seen := by
  subst h
  rfl

theorem subW_gT_fresh : subW gT 0 [] = ([0], [0]) := by
  rw [subW, if_neg (by simp)]
  rw [subWList_congr gT 0 (show gT.argsOf 0 = [] from rfl)]
  rw [subWList]
  rfl

theorem subW_gT_seen : subW gT 0 [0] = ([], [0]) := by
  rw [subW, if_pos (by simp)]

theorem tcGather_gT : tcGather gT xT = .ok runT := by
  simp only [tcGather, show xT.src = 0 from rfl, show xT.tgt = 0 from rfl,
    show xT.pre = none from rfl, subW_gT_fresh, subW_gT_seen]
  rfl

theorem claim_C2_witness :
    tcGather gT xT = .ok runT ∧
    (tcLeftover runT = [] → typeConstraints gT xT = .ok (tcDefaulted runT)) :=
  ⟨tcGather_gT, (claim_C2 gT xT runT tcGather_gT).1⟩

/-! ## C9: determinism of type_constraints across set-enumeration orders -/

theorem foldl_erase_perm_init (t : TC) (e1 : List Nat) :
    ∀ {a b : List Nat}, a.Perm b →
      (e1.foldl (fun acc r => acc.erase (t.repOf r)) a).Perm
        (e1.foldl (fun acc r => acc.erase (t.repOf r)) b) := by
  induction e1 with
  | nil => intro a b h; simpa using h
  | cons r rest ih =>
    intro a b h
    simp only [List.foldl_cons]
    exact ih (h.erase _)

theorem tcFreeReps_perm (t : TC) {e1 e1' e2 e2' : List Nat}
    (h1 : e1.Perm e1') (h2 : e2.Perm e2') :
    (tcFreeReps t e1 e2).Perm (tcFreeReps t e1' e2') := by
  unfold tcFreeReps
  haveI : RightCommutative (fun (acc : List Nat) r => acc.erase (t.repOf r)) :=
    ⟨fun b a1 a2 => List.erase_comm _ _ _⟩
  have heq : e1.foldl (fun acc r => acc.erase (t.repOf r))
        (e2'.filter (t.freeRep ·)) =
      e1'.foldl (fun acc r => acc.erase (t.repOf r))
        (e2'.filter (t.freeRep ·)) :=
    h1.foldl_eq _
  have p1 := foldl_erase_perm_init t e1 (h2.filter (t.freeRep ·))
  rw [heq] at p1
  exact p1

theorem dfltFold_perm (dflt : List Nat) :
    ∀ {a b : TC × List Nat}, a.1 = b.1 → a.2.Perm b.2 →
      (dflt.foldl dfltStep a).1 = (dflt.foldl dfltStep b).1 ∧
      (dflt.foldl dfltStep a).2.Perm (dflt.foldl dfltStep b).2 := by
  induction dflt with
  | nil => intro a b h1 h2; exact ⟨h1, h2⟩
  | cons d rest ih =>
    intro a b h1 h2
    simp only [List.foldl_cons]
    refine ih ?_ ?_
    · simp only [dfltStep, h1]
      by_cases hm : b.1.repOf d ∈ a.2
      · rw [if_pos hm, if_pos (h2.mem_iff.mp hm)]
      · rw [if_neg hm, if_neg (fun hc => hm (h2.mem_iff.mpr hc))]
        exact h1
    · simp only [dfltStep, h1]
      by_cases hm : b.1.repOf d ∈ a.2
      · rw [if_pos hm, if_pos (h2.mem_iff.mp hm)]
        exact h2.erase _
      · rw [if_neg hm, if_neg (fun hc => hm (h2.mem_iff.mpr hc))]
        exact h2

theorem defaultPass_perm (t : TC) (dflt : List Nat) {reps reps' : List Nat}
    (h : reps.Perm reps') :
    (defaultPass t dflt reps).1 = (defaultPass t dflt reps').1 ∧
    (defaultPass t dflt reps).2.Perm (defaultPass t dflt reps').2 := by
  unfold defaultPass
  have he : reps.isEmpty = reps'.isEmpty := by
    rcases reps with _ | ⟨a, l⟩ <;> rcases reps' with _ | ⟨c, m⟩
    · rfl
    · exact absurd h (by simp)
    · exact absurd h (by simp)
    · rfl
  rw [he]
  by_cases hE : reps'.isEmpty = true
  · rw [if_pos hE, if_pos hE]
    exact ⟨rfl, h⟩
  · rw [if_neg hE, if_neg hE]
    exact dfltFold_perm dflt rfl h

/-- C9: the collection walks of `type_constraints` are pure functions of
the Transform; the only run-to-run variation is the enumeration order of
the two Python sets (the recorded source representatives and the
collector's representatives).  For any two enumeration orders of the same
sets, the finishing steps produce the same verdict (both fail with
Ambiguous Type, or neither), and on success a structurally identical
collector: the same union-find classes with the same constraints. -/
theorem claim_C9 (g : TermGraph) (run : TCRun) (e1 e1' e2 e2' : List Nat)
    (h1 : e1.Perm e1') (h2 : e2.Perm e2') :
    (∀ tc, tcFinish g run e1 e2 = .ok tc ↔ tcFinish g run e1' e2' = .ok tc) ∧
    (∀ m, tcFinish g run e1 e2 = .error m →
      ∃ m2, tcFinish g run e1' e2' = .error m2) ∧
    (∀ tc tc2, tcFinish g run e1 e2 = .ok tc →
      tcFinish g run e1' e2' = .ok tc2 →
      tc = tc2 ∧
      (∀ a b, tc.repOf a = tc.repOf b ↔ tc2.repOf a = tc2.repOf b) ∧
      (∀ a, tc.constrOf a = tc2.constrOf a)) := by
  have hreps := tcFreeReps_perm run.t h1 h2
  have hdp := defaultPass_perm run.t run.defaultable hreps
  unfold tcFinish
  have hE : (defaultPass run.t run.defaultable
        (tcFreeReps run.t e1 e2)).2.isEmpty =
      (defaultPass run.t run.defaultable
        (tcFreeReps run.t e1' e2')).2.isEmpty := by
    rcases hx : (defaultPass run.t run.defaultable
        (tcFreeReps run.t e1 e2)).2 with _ | ⟨a, l⟩ <;>
      rcases hy : (defaultPass run.t run.defaultable
        (tcFreeReps run.t e1' e2')).2 with _ | ⟨c, m⟩
    · rfl
    · have := hdp.2; rw [hx, hy] at this; exact absurd this (by simp)
    · have := hdp.2; rw [hx, hy] at this; exact absurd this (by simp)
    · rfl
  by_cases hc : (defaultPass run.t run.defaultable
      (tcFreeReps run.t e1' e2')).2.isEmpty = true
  · rw [if_pos (hE.trans hc), if_pos hc, hdp.1]
    refine ⟨fun tc => Iff.rfl, ?_, ?_⟩
    · intro m hm
      exact absurd hm (by simp)
    · intro tc tc2 hok hok2
      rw [hok] at hok2
      obtain rfl : tc = tc2 := by
        simpa using hok2
      exact ⟨rfl, fun a b => Iff.rfl, fun a => rfl⟩
  · rw [if_neg (fun hcc => hc (hE ▸ hcc)), if_neg hc]
    refine ⟨fun tc => by simp, ?_, ?_⟩
    · intro m _
      exact ⟨_, rfl⟩
    · intro tc tc2 hok _
      exact absurd hok (by simp)

def runT9 : TCRun := ⟨TC.init 2, [], []⟩

theorem claim_C9_witness :
    ([0, 1] : List Nat).Perm [1, 0] ∧ ([] : List Nat).Perm [] ∧
    (∀ tc, tcFinish gT runT9 [0, 1] [] = .ok tc ↔
      tcFinish gT runT9 [1, 0] [] = .ok tc) :=
  ⟨by decide, by decide,
   (claim_C9 gT runT9 [0, 1] [1, 0] [] [] (by decide) (by decide)).1⟩

/-! ## C3: validate_model is a total boolean check -/

theorem vCheckList_ok_iff (g : TermGraph) (vec : Nat → VType) (l : List Nat) :
    vCheckList g vec l = .ok () ↔ ∀ i ∈ l, vCheckTerm g vec i = .ok () := by
  induction l with
  | nil => simp [vCheckList]
  | cons i rest ih =>
    rw [vCheckList]
    cases hv : vCheckTerm g vec i with
    | error e =>
      simp only
      constructor
      · intro hc
        exact absurd hc (by simp)
      · intro hall
        have := hall i (.head _)
        rw [hv] at this
        exact absurd this (by simp)
    | ok u =>
      cases u
      constructor
      · intro hr j hj
        rcases List.mem_cons.mp hj with rfl | hj
        · exact hv
        · exact ih.mp hr j hj
      · intro hall
        exact ih.mpr (fun j hj => hall j (.tail _ hj))

/-- C3: `validate_model` returns a boolean, `true` exactly when re-running
the src/tgt type unification and every subterm's own constraint check
against the concrete vector detects no violation; every violation is
converted to `false` at the validator boundary, and the check is a total
function — it never fails past its own boundary. -/
theorem claim_C3 (g : TermGraph) (x : Xform) (vec : Nat → VType) :
    (validateModel g x vec = true ↔
      vEqTypes vec x.src x.tgt = .ok () ∧
      ∀ i ∈ xSubterms g x, vCheckTerm g vec i = .ok ()) ∧
    (validateModel g x vec = true ∨ validateModel g x vec = false) := by
  constructor
  · unfold validateModel
    cases he : vEqTypes vec x.src x.tgt with
    | error e =>
      simp only
      constructor
      · intro hc
        exact absurd hc (by simp)
      · rintro ⟨h1, _⟩
        exact absurd h1 (by simp)
    | ok u =>
      cases u
      cases hl : vCheckList g vec (xSubterms g x) with
      | error e =>
        simp only
        constructor
        · intro hc
          exact absurd hc (by simp)
        · rintro ⟨_, hall⟩
          have := (vCheckList_ok_iff g vec _).mpr hall
          rw [hl] at this
          exact absurd this (by simp)
      | ok u2 =>
        cases u2
        simp only
        exact ⟨fun _ => ⟨trivial, (vCheckList_ok_iff g vec _).mp hl⟩,
          fun _ => trivial⟩
  · cases h : validateModel g x vec
    · exact Or.inr rfl
    · exact Or.inl rfl

/-! ## format_parts and the target-root aliasing -/

/-- The `ty = some _` form of `operand` adds a type prefix to the document
but leaves the formatter state as in the `ty = none` form. -/
theorem operandD_ty_snd (g : TermGraph) (i : Nat) (fmt : Fmt) (prec : Nat)
    (t : String) :
    (operandD g i fmt prec (some t)).2 = (operandD g i fmt prec none).2 := by
  rw [operandD, operandD]

theorem formatDoc_instr_snd {g : TermGraph} {i x y : Nat} {nm code : String}
    {flags : List String} (fmt : Fmt) (prec : Nat)
    (hk : g.kindAt i = .instr nm code flags) (ha : g.argsOf i = [x, y]) :
    (formatDoc g i fmt prec).2 =
      (operandD g y (operandD g x fmt 0 none).2 0 none).2 := by
  rw [formatDoc]
  split <;> simp_all
  split <;> simp_all

theorem formatDoc_instr_degen_snd {g : TermGraph} {i : Nat} {nm code : String}
    {flags : List String} (fmt : Fmt) (prec : Nat)
    (hk : g.kindAt i = .instr nm code flags)
    (hnp : ∀ x y, g.argsOf i = [x, y] → False) :
    (formatDoc g i fmt prec).2 = fmt := by
  rw [formatDoc]
  split <;> simp_all

theorem formatDoc_cmp_snd {g : TermGraph} {i x y : Nat} {op : String}
    (fmt : Fmt) (prec : Nat) (hk : g.kindAt i = .comparison op)
    (ha : g.argsOf i = [x, y]) :
    (formatDoc g i fmt prec).2 =
      (operandD g y (operandD g x fmt 3 none).2 3 none).2 := by
  rw [formatDoc]
  split <;> simp_all
  split <;> simp_all

theorem formatDoc_cmp_degen_snd {g : TermGraph} {i : Nat} {op : String}
    (fmt : Fmt) (prec : Nat) (hk : g.kindAt i = .comparison op)
    (hnp : ∀ x y, g.argsOf i = [x, y] → False) :
    (formatDoc g i fmt prec).2 = fmt := by
  rw [formatDoc]
  split <;> simp_all

theorem formatDoc_funPred_snd {g : TermGraph} {i : Nat} {code : String}
    (fmt : Fmt) (prec : Nat) (hk : g.kindAt i = .funPred code) :
    (formatDoc g i fmt prec).2 =
      (operandSeq g i (g.argsOf i).attach fmt).2 := by
  rw [formatDoc]
  split <;> simp_all

theorem operandSeq_nil (g : TermGraph) (i : Nat) (fmt : Fmt) :
    operandSeq g i [] fmt = ([], fmt) := by
  rw [operandSeq]

theorem operandSeq_cons_snd (g : TermGraph) (i : Nat)
    (a : {x // x ∈ g.argsOf i}) (rest : List {x // x ∈ g.argsOf i})
    (fmt : Fmt) :
    (operandSeq g i (a :: rest) fmt).2 =
      (operandSeq g i rest (operandD g a.1 fmt 0 none).2).2 := by
  rw [operandSeq]

theorem gatherCnxp_degen {g : TermGraph} {i : Nat} {code : String} (fmt : Fmt)
    (hc : cnxpCode g i = some code)
    (hnp : ∀ x y, g.argsOf i = [x, y] → False) :
    gatherCnxp g (binCnxpPrec code) i fmt = (Doc.seqn [], fmt) := by
  rw [gatherCnxp]
  split <;> simp_all

/-- Monotonicity of the naming state: every recorded id survives. -/
def FmtLe (f f' : Fmt) : Prop :=
  ∀ t nm, f.lookupId t = some nm → f'.lookupId t = some nm

theorem fmtLe_refl (f : Fmt) : FmtLe f f := fun _ _ h => h

theorem fmtLe_trans {a b c : Fmt} (h1 : FmtLe a b) (h2 : FmtLe b c) :
    FmtLe a c :=
  fun t nm h => h2 t nm (h1 t nm h)

theorem lookupId_cons {ids : List (Nat × String)} {names : List String}
    {fresh : Nat} {t t' : Nat} {nm : String} (h : t ≠ t') :
    (Fmt.mk ((t, nm) :: ids) names fresh).lookupId t' =
      (Fmt.mk ids names fresh).lookupId t' := by
  unfold Fmt.lookupId
  rw [List.find?_cons_of_neg _ (by simpa using h)]

/-- A `name` call never removes or changes an existing id entry. -/
theorem name_le (g : TermGraph) (f : Fmt) (t : Nat) :
    FmtLe f (Fmt.name g f t).2 := by
  intro t' nm h
  unfold Fmt.name
  cases hl : f.lookupId t with
  | some s => simpa using h
  | none =>
    simp only
    have hne : t ≠ t' := by
      intro hc
      rw [hc, h] at hl
      exact absurd hl (by simp)
    rw [lookupId_cons hne]
    exact h

theorem name_found (g : TermGraph) {f : Fmt} {t : Nat} {nm : String}
    (h : f.lookupId t = some nm) : Fmt.name g f t = (nm, f) := by
  unfold Fmt.name
  rw [h]

/-- The printers touch the formatter only through `name`: every id recorded
before a `format_doc` call is still recorded, unchanged, afterwards. -/
theorem formatDoc_le (g : TermGraph) :
    ∀ (i : Nat) (fmt : Fmt) (prec : Nat), FmtLe fmt (formatDoc g i fmt prec).2 := by
  apply formatDoc.induct g
    (fun i fmt prec ty => FmtLe fmt (operandD g i fmt prec ty).2)
    (fun i fmt prec => FmtLe fmt (formatDoc g i fmt prec).2)
    (fun i l fmt => FmtLe fmt (operandSeq g i l fmt).2)
    (fun opPrec i fmt => FmtLe fmt (gatherCnxp g opPrec i fmt).2)
  · intro i fmt prec ih
    by_cases h : ((fmt.lookupId i).isSome || (g.kindAt i).isInstruction) = true
    · rw [operandD_named prec h]
      exact name_le g fmt i
    · rw [operandD_inline prec (by simpa using h)]
      exact ih
  · intro i fmt prec t ih
    rw [operandD_ty_snd]
    by_cases h : ((fmt.lookupId i).isSome || (g.kindAt i).isInstruction) = true
    · rw [operandD_named prec h]
      exact name_le g fmt i
    · rw [operandD_inline prec (by simpa using h)]
      exact ih
  · intro i fmt prec nm hk
    rw [formatDoc_input fmt prec hk]
    exact name_le g fmt i
  · intro i fmt prec nm code flags hk x y ha hx hy px ih1 ih2
    rw [formatDoc_instr_snd fmt prec hk ha]
    exact fmtLe_trans ih1 ih2
  · intro i fmt prec nm code flags hk hnp
    rw [formatDoc_instr_degen_snd fmt prec hk hnp]
    exact fmtLe_refl fmt
  · intro i fmt prec v hk
    rw [formatDoc_literal fmt prec hk]
    exact fmtLe_refl fmt
  · intro i fmt prec nm hk
    rw [formatDoc_symbol fmt prec hk]
    exact fmtLe_refl fmt
  · intro i fmt prec code hk opPrec ih
    rw [formatDoc_cnxp fmt prec hk]
    exact ih
  · intro i fmt prec op hk x y ha hx hy px ih1 ih2
    rw [formatDoc_cmp_snd fmt prec hk ha]
    exact fmtLe_trans ih1 ih2
  · intro i fmt prec op hk hnp
    rw [formatDoc_cmp_degen_snd fmt prec hk hnp]
    exact fmtLe_refl fmt
  · intro i fmt prec code hk ih
    rw [formatDoc_funPred_snd fmt prec hk]
    exact ih
  · intro i fmt
    rw [operandSeq_nil]
    exact fmtLe_refl fmt
  · intro i fmt a rest ha p ih1 ih2
    rw [operandSeq_cons_snd]
    exact fmtLe_trans ih1 ih2
  · intro i fmt code x y hc ha hx hy px ih1 ih2 ih3
    rw [gatherCnxp_run fmt hc ha]
    by_cases hl : code ∈ binCnxpLassoc
    · simp only [hl, if_true, ite_true]
      exact fmtLe_trans ih1 ih2
    · simp only [hl, if_false, ite_false]
      exact fmtLe_trans ih1 ih3
  · intro opPrec i fmt code x y hc ha hp ih
    rw [gatherCnxp_precMiss opPrec fmt hc hp]
    exact ih
  · intro i fmt code hc hnp
    rw [gatherCnxp_degen fmt hc hnp]
    exact fmtLe_refl fmt
  · intro opPrec i fmt code hc hp hnp ih
    rw [gatherCnxp_precMiss opPrec fmt hc hp]
    exact ih
  · intro opPrec i fmt hc ih
    rw [gatherCnxp_nonCnxp opPrec fmt hc]
    exact ih

/-- `fmt.ids[term] = name` (dict assignment: overwrite). -/
def fmtSetId (fmt : Fmt) (t : Nat) (nm : String) : Fmt :=
  { fmt with ids := (t, nm) :: fmt.ids }

theorem lookupId_setId_self (fmt : Fmt) (t : Nat) (nm : String) :
    (fmtSetId fmt t nm).lookupId t = some nm := by
  unfold fmtSetId Fmt.lookupId
  rw [List.find?_cons_of_pos _ (by simp)]
  rfl

theorem lookupId_setId_ne (fmt : Fmt) {t t' : Nat} (nm : String)
    (h : t ≠ t') :
    (fmtSetId fmt t nm).lookupId t' = fmt.lookupId t' := by
  unfold fmtSetId Fmt.lookupId
  rw [List.find?_cons_of_neg _ (by simpa using h)]

/-- One comprehension entry of `format_parts`:
`(fmt.name(i), format_doc(i, fmt, 0))`, tagged with the term identity. -/
def fpPairs (g : TermGraph) (l : List Nat) (fmt : Fmt) :
    List (Nat × String × Doc) × Fmt :=
  match l with
  | [] => ([], fmt)
  | i :: rest =>
    let n := Fmt.name g fmt i
    let d := formatDoc g i n.2 0
    let r := fpPairs g rest d.2
    ((i, n.1, d.1) :: r.1, r.2)

/-- The `heads` sequence: one `seq(h, ' ', format_doc(t).nest(len(h)+1),
line)` per header. -/
def fpHeads (g : TermGraph) (hs : List (String × Nat)) (fmt : Fmt) :
    List Doc × Fmt :=
  match hs with
  | [] => ([], fmt)
  | (h, t) :: rest =>
    let d := formatDoc g t fmt 0
    let r := fpHeads g rest d.2
    (Doc.seqn [Doc.text h, Doc.text " ", Doc.nest (h.length + 1) d.1,
      Doc.line] :: r.1, r.2)

/-- The `tgti` comprehension: the filter `if i not in fmt.ids` is evaluated
sequentially against the formatter state of its own iteration. -/
def fpTgti (g : TermGraph) (l : List Nat) (fmt : Fmt) :
    List (Nat × String × Doc) × Fmt :=
  match l with
  | [] => ([], fmt)
  | i :: rest =>
    if (fmt.lookupId i).isSome then fpTgti g rest fmt
    else
      let n := Fmt.name g fmt i
      let d := formatDoc g i n.2 0
      let r := fpTgti g rest d.2
      ((i, n.1, d.1) :: r.1, r.2)

/-- The first stage of `format_parts`: `srci`, `cdefs` and `heads`, in that
order, threading one formatter. -/
def fpStage1 (g : TermGraph) (x : Xform) (hs : List (String × Nat))
    (fmt0 : Fmt) :
    (List (Nat × String × Doc) × List (Nat × String × Doc) × List Doc) ×
      Fmt :=
  let srci := fpPairs g (getInsts g x.src) fmt0
  let cdefs := fpPairs g (constantDefs g x.tgt (hs.map (·.2))) srci.2
  let heads := fpHeads g hs cdefs.2
  ((srci.1, cdefs.1, heads.1), heads.2)

/-- `if isinstance(tgt, L.Instruction): fmt.ids[tgt] = fmt.name(src)`. -/
def fpFmt4 (g : TermGraph) (x : Xform) (fmt3 : Fmt) : Fmt :=
  if (g.kindAt x.tgt).isInstruction then
    let n := Fmt.name g fmt3 x.src
    fmtSetId n.2 x.tgt n.1
  else fmt3

/-- The `tgti` list including the appended target-root entry
`(fmt.name(src), format_doc(tgt, fmt, 0))`. -/
def fpTgtAll (g : TermGraph) (x : Xform) (fmt4 : Fmt) :
    List (Nat × String × Doc) × Fmt :=
  let tgtiM := fpTgti g (getInsts g x.tgt) fmt4
  let n2 := Fmt.name g tgtiM.2 x.src
  let d2 := formatDoc g x.tgt n2.2 0
  (tgtiM.1 ++ [(x.tgt, n2.1, d2.1)], d2.2)

structure FPParts where
  srci : List (Nat × String × Doc)
  cdefs : List (Nat × String × Doc)
  heads : List Doc
  tgti : List (Nat × String × Doc)
  fmt : Fmt

/-- `format_parts`, up to the parts lists; the trailing name-width layout
(`fmt_decl` and the final `seq`) consumes these parts without touching the
formatter or the names and is pure document assembly. -/
def formatParts (g : TermGraph) (x : Xform) (hs : List (String × Nat))
    (fmt0 : Fmt) : FPParts :=
  let s1 := fpStage1 g x hs fmt0
  let fmt4 := fpFmt4 g x s1.2
  let tg := fpTgtAll g x fmt4
  ⟨s1.1.1, s1.1.2.1, s1.1.2.2, tg.1, tg.2⟩

theorem fpTgti_le (g : TermGraph) (l : List Nat) :
    ∀ fmt, FmtLe fmt (fpTgti g l fmt).2 := by
  induction l with
  | nil =>
    intro fmt
    rw [fpTgti]
    exact fmtLe_refl fmt
  | cons i rest ih =>
    intro fmt
    rw [fpTgti]
    by_cases hs : (fmt.lookupId i).isSome
    · rw [if_pos hs]
      exact ih fmt
    · rw [if_neg hs]
      exact fmtLe_trans (name_le g fmt i)
        (fmtLe_trans (formatDoc_le g i _ 0) (ih _))

/-- Once a term has an id, no later `tgti` entry can list it. -/
theorem fpTgti_skip (g : TermGraph) (t0 : Nat) (nm : String) (l : List Nat) :
    ∀ fmt, fmt.lookupId t0 = some nm →
      ∀ p ∈ (fpTgti g l fmt).1, p.1 ≠ t0 := by
  induction l with
  | nil =>
    intro fmt h p hp
    rw [fpTgti] at hp
    simp at hp
  | cons i rest ih =>
    intro fmt h p hp
    rw [fpTgti] at hp
    by_cases hs : (fmt.lookupId i).isSome
    · rw [if_pos hs] at hp
      exact ih fmt h p hp
    · rw [if_neg hs] at hp
      simp only [List.mem_cons] at hp
      rcases hp with rfl | hp
      · intro hc
        simp only at hc
        rw [hc, h] at hs
        exact hs (by simp)
      · have h2 : ((formatDoc g i (Fmt.name g fmt i).2 0).2).lookupId t0 =
            some nm :=
          formatDoc_le g i _ 0 t0 nm (name_le g fmt i t0 nm h)
        exact ih _ h2 p hp

theorem fpFmt4_spec (g : TermGraph) (x : Xform) (fmt3 : Fmt)
    (hI : (g.kindAt x.tgt).isInstruction = true) :
    (fpFmt4 g x fmt3).lookupId x.tgt = some (Fmt.name g fmt3 x.src).1 ∧
    (fpFmt4 g x fmt3).lookupId x.src = some (Fmt.name g fmt3 x.src).1 := by
  unfold fpFmt4
  rw [if_pos hI]
  constructor
  · exact lookupId_setId_self _ _ _
  · by_cases hst : x.tgt = x.src
    · rw [← hst]
      exact lookupId_setId_self _ _ _
    · rw [lookupId_setId_ne _ _ hst]
      exact name_lookup_after g fmt3 x.src

theorem fpTgtAll_spec (g : TermGraph) (x : Xform) (fmt4 : Fmt) (nm : String)
    (ht : fmt4.lookupId x.tgt = some nm)
    (hsr : fmt4.lookupId x.src = some nm) :
    (fpTgtAll g x fmt4).2.lookupId x.tgt = some nm ∧
    (fpTgtAll g x fmt4).2.lookupId x.src = some nm ∧
    (∀ p ∈ (fpTgtAll g x fmt4).1.dropLast, p.1 ≠ x.tgt) ∧
    ∃ d, (fpTgtAll g x fmt4).1.getLast? = some (x.tgt, nm, d) := by
  unfold fpTgtAll
  simp only
  have h5 : FmtLe fmt4 (fpTgti g (getInsts g x.tgt) fmt4).2 :=
    fpTgti_le g _ fmt4
  have hsr2 : (fpTgti g (getInsts g x.tgt) fmt4).2.lookupId x.src = some nm :=
    h5 _ _ hsr
  have hn2 : Fmt.name g (fpTgti g (getInsts g x.tgt) fmt4).2 x.src =
      (nm, (fpTgti g (getInsts g x.tgt) fmt4).2) :=
    name_found g hsr2
  rw [hn2]
  have h6 : FmtLe (fpTgti g (getInsts g x.tgt) fmt4).2
      (formatDoc g x.tgt (fpTgti g (getInsts g x.tgt) fmt4).2 0).2 :=
    formatDoc_le g x.tgt _ 0
  refine ⟨h6 _ _ (h5 _ _ ht), h6 _ _ hsr2, ?_, ?_⟩
  · rw [List.dropLast_concat]
    exact fpTgti_skip g x.tgt nm _ fmt4 ht
  · exact ⟨(formatDoc g x.tgt (fpTgti g (getInsts g x.tgt) fmt4).2 0).1,
      by simp⟩

/-- C10: when the target root is an Instruction, `format_parts` assigns the
target root's display id to be the source root's name before listing the
target instructions: afterwards the source and target roots resolve to one
shared display name (two distinct term identities under one name), the
target root is excluded from the separately listed target instructions, and
the final appended entry prints the target root's body under that shared
name. -/
theorem claim_C10 (g : TermGraph) (x : Xform) (hs : List (String × Nat))
    (fmt0 : Fmt) (hI : (g.kindAt x.tgt).isInstruction = true) :
    ∃ nm,
      (formatParts g x hs fmt0).fmt.lookupId x.tgt = some nm ∧
      (formatParts g x hs fmt0).fmt.lookupId x.src = some nm ∧
      (∀ p ∈ (formatParts g x hs fmt0).tgti.dropLast, p.1 ≠ x.tgt) ∧
      ∃ d, (formatParts g x hs fmt0).tgti.getLast? = some (x.tgt, nm, d) := by
  have hfm : (formatParts g x hs fmt0).fmt =
      (fpTgtAll g x (fpFmt4 g x (fpStage1 g x hs fmt0).2)).2 := rfl
  have htg : (formatParts g x hs fmt0).tgti =
      (fpTgtAll g x (fpFmt4 g x (fpStage1 g x hs fmt0).2)).1 := rfl
  rw [hfm, htg]
  obtain ⟨h1, h2⟩ := fpFmt4_spec g x (fpStage1 g x hs fmt0).2 hI
  obtain ⟨k1, k2, k3, k4⟩ := fpTgtAll_spec g x _ _ h1 h2
  exact ⟨_, k1, k2, k3, k4⟩

def g10 : TermGraph :=
  ⟨[⟨.input "x", []⟩, ⟨.instr "r" "add" [], [0, 0]⟩], by decide⟩

def x10 : Xform := ⟨1, 1, none⟩

theorem claim_C10_witness :
    (g10.kindAt x10.tgt).isInstruction = true ∧
    ∃ nm,
      (formatParts g10 x10 [] Fmt.init).fmt.lookupId x10.tgt = some nm ∧
      (formatParts g10 x10 [] Fmt.init).fmt.lookupId x10.src = some nm ∧
      (∀ p ∈ (formatParts g10 x10 [] Fmt.init).tgti.dropLast, p.1 ≠ x10.tgt) ∧
      ∃ d, (formatParts g10 x10 [] Fmt.init).tgti.getLast? =
        some (x10.tgt, nm, d) :=
  ⟨by decide, claim_C10 g10 x10 [] Fmt.init (by decide)⟩

end Rival
